import Mathlib

set_option autoImplicit false

/-!
Shallow embedding of the r-pipeline stage-chain engine and layer middleware.

The value type of a chain is a single type `V` (the TypeScript source is
generically typed per stage; instantiating every stage type with one `V`
loses no control flow).  JavaScript `Error` objects are modelled by their
message string; `HandlerResult<R> = Input<R> | Error` becomes `HRes V`;
a handler that may also return a `Promise` (a thenable, as detected by
`isThenable`, src/src/utils/isThenable.ts) returns `HOut V`, whose
`thenable` constructor stands for any thenable return value.
-/

namespace RPipeline

/-- Outcome of an already-settled handler call:
`HandlerResult<R> = Input<R> | Error` (src/src/pipeline/pipeTypes.ts).
`Input<R>` excludes `null`/`undefined`, so `ok` always carries a value. -/
inductive HRes (V : Type) where
  | ok : V → HRes V
  | err : String → HRes V
  deriving DecidableEq, Repr

/-- Raw return value of a possibly-asynchronous handler:
`HandlerResult<R> | Promise<HandlerResult<R>>` (src/src/pipeline/pipeTypes.ts).
`thenable` stands for any `Promise` return, which `isThenable` detects. -/
inductive HOut (V : Type) where
  | val : V → HOut V
  | err : String → HOut V
  | thenable : HOut V
  deriving DecidableEq, Repr

/-- Per-node outcome slot `PipeResult<S, E>` (src/src/pipeline/pipeTypes.ts):
`empty`, or `success value`, or an error record carrying the `Error`, the
`origin` input that was fed to the failing stage (or `null`), and the stage
label.  The `timestamp : number` field (`Date.now()`) is wall-clock data with
no control-flow role and is not modelled. -/
inductive PipeRes (V : Type) where
  | empty
  | success : V → PipeRes V
  | error : String → Option V → String → PipeRes V
  deriving DecidableEq, Repr

/-- Message of `thenableError` (src/src/pipeline/error.ts):
the error produced when a thenable is returned under the synchronous driver. -/
def thenableMsg : String := "Cannot use thenable function. Please use streamAsync()"

/-- Message of `inputError` (src/src/pipeline/error.ts). -/
def inputErrMsg : String := "Pipeline input data is null"

/-- Defensive message of `getStreamResult` (src/src/pipeline/pipe.ts line 393). -/
def resultNotFoundMsg : String := "Result not found"

/-- `thenableError(stage)` (src/src/pipeline/error.ts): a `PipeError` with
origin `null`. -/
def thenableError (V : Type) (stage : String) : PipeRes V :=
  PipeRes.error thenableMsg none stage

/-- `inputError(stage)` (src/src/pipeline/error.ts): a `PipeError` with
origin `null`. -/
def inputErrorRes (V : Type) (stage : String) : PipeRes V :=
  PipeRes.error inputErrMsg none stage

/-- Default recovery handler `errorPassthrough` (src/src/pipeline/helper.ts):
re-emits the incoming error unchanged. -/
def errorPassthrough (V : Type) : String → Option V → HOut V :=
  fun e _ => HOut.err e

/-- One stage node's immutable data (constructor of `Pipe`,
src/src/pipeline/pipe.ts lines 36-46): the `handler`, the `recoverHandler`
(defaulting to `errorPassthrough`), and the display label `stage`
(defaulting to `"no name"`).  The predecessor/successor links are implicit
in the position of the stage inside a chain list; the pointer-level graph is
modelled separately by `PNode`/`arenaJoint` below. -/
structure Stage (V : Type) where
  handler : V → HOut V
  recover : String → Option V → HOut V := errorPassthrough V
  stage : String := "no name"

/-- Ghost record of what one drive pass did at one node: the node's outcome
slot after the pass (`res`), whether the node's `handler` was invoked during
the pass (`invoked`), and whether the drive loop reached the node at all
(`driven`).  A node the loop never reached keeps its previous `res` and has
`invoked = driven = false`. -/
structure StageLog (V : Type) where
  res : PipeRes V
  invoked : Bool
  driven : Bool
  deriving DecidableEq, Repr

variable {V : Type}

/-- Tail of `Pipe.unitStream` (src/src/pipeline/pipe.ts lines 309-315): run
the handler on the resolved input; a thenable result stores `thenableError`
and halts the walk; otherwise `setResult` (lines 221-227) stores either a
`PipeError` whose `origin` is the input that was just fed to the handler, or
a success, and the walk continues to `next`.  The second component is the
continue flag (`true` when the node returns `this.next`). -/
def runHandler (s : Stage V) (input : V) : PipeRes V × Bool :=
  match s.handler input with
  | HOut.thenable => (thenableError V s.stage, false)
  | HOut.err e => (PipeRes.error e (some input) s.stage, true)
  | HOut.val v => (PipeRes.success v, true)

/-- One unit of work of `Pipe.unitStream` (src/src/pipeline/pipe.ts lines
263-316) for a node with a predecessessor outcome `parentRes`:
an `empty` predecessor slot stores `inputError` and halts; a success feeds
the value to the handler; an error invokes `recoverHandler(error, origin)`,
where a thenable recovery stores `thenableError` and halts, an error
recovery stores a `PipeError` with origin `null` and halts, and a recovered
value feeds the handler.  Components: new outcome slot, continue flag,
handler-invoked flag. -/
def unitStep (s : Stage V) (parentRes : PipeRes V) : PipeRes V × Bool × Bool :=
  match parentRes with
  | PipeRes.empty => (inputErrorRes V s.stage, false, false)
  | PipeRes.success v =>
    let (r, c) := runHandler s v
    (r, c, true)
  | PipeRes.error e origin _ =>
    match s.recover e origin with
    | HOut.thenable => (thenableError V s.stage, false, false)
    | HOut.err e2 => (PipeRes.error e2 none s.stage, false, false)
    | HOut.val v =>
      let (r, c) := runHandler s v
      (r, c, true)

/-- Slots of the nodes the drive loop never reached in this pass: their
`resetResult` never ran, so each keeps its previous value from `prev`. -/
def staleLogs : List (Stage V) → List (PipeRes V) → List (StageLog V)
  | [], _ => []
  | _ :: rest, prev => ⟨prev.headD PipeRes.empty, false, false⟩ :: staleLogs rest prev.tail

/-- The drive loop of `Pipe.doStream` (src/src/pipeline/pipe.ts lines
365-371) over the remaining stages: repeatedly execute `unitStep` on the
current node (whose predecessor outcome is `pres`) and advance to the
successor while the unit returns it; once a unit halts, the remaining nodes
keep their previous slots (`staleLogs`).  `prev` holds the slots left over
from the previous invocation, aligned with `stages`. -/
def driveRest : List (Stage V) → List (PipeRes V) → PipeRes V → List (StageLog V)
  | [], _, _ => []
  | s :: rest, prev, pres =>
    let (r, c, inv) := unitStep s pres
    StageLog.mk r inv true ::
      (if c then driveRest rest prev.tail r else staleLogs rest prev.tail)

/-- Head node's unit of work (src/src/pipeline/pipe.ts lines 269-271 and
309-315): the node created by `Pipe.from` has no parent, so its input is the
`entryInput` seeded by `doStream`; the handler then runs as in `runHandler`. -/
def unitHead (s : Stage V) (entryInput : Option V) : PipeRes V × Bool :=
  match entryInput with
  | none => (inputErrorRes V s.stage, false)
  | some x => runHandler s x

/-- One full drive pass of `doStream(input)`: seed the head's entry input
with `x`, run the head's unit, then `driveRest` over the remaining stages. -/
def drivePass (head : Stage V) (rest : List (Stage V)) (prev : List (PipeRes V)) (x : V) :
    List (StageLog V) :=
  let (r, c) := unitHead head (some x)
  StageLog.mk r true true ::
    (if c then driveRest rest prev.tail r else staleLogs rest prev.tail)

/-- Projection of an outcome slot to its error message, when it holds one. -/
def resErr? : PipeRes V → Option String
  | PipeRes.error e _ _ => some e
  | _ => none

/-- The `getStreamError` walk (src/src/pipeline/pipe.ts lines 243-261)
started at the tail: `getError` returns the node's stored error if its slot
holds one and otherwise forwards to the parent, so the walk yields the error
of the node nearest to the tail (the end of the list) whose slot holds one
(slots that are successes or empty are walked past), or `none` when no slot
on the parent path holds an error.  Recursively: the nearest error in the
tail of the list wins, and the head is consulted last. -/
def streamErrorFrom : List (PipeRes V) → Option String
  | [] => none
  | r :: rest => (streamErrorFrom rest).elim (resErr? r) some

/-- The result extraction of `getStreamResult` (src/src/pipeline/pipe.ts
lines 381-394), invoked on the tail node: return the tail slot's success
value if present; otherwise return the nearest error found by the
`getStreamError` walk; otherwise the defensive `Result not found` error. -/
def getStreamResultAt (results : List (PipeRes V)) : HRes V :=
  match results.getLast? with
  | some (PipeRes.success v) => HRes.ok v
  | _ =>
    match streamErrorFrom results with
    | some e => HRes.err e
    | none => HRes.err resultNotFoundMsg

/-- `stream(input)` invoked on the tail of the chain `head :: rest`
(src/src/pipeline/pipe.ts lines 396-405), also returning the ghost log of
the pass; `prev` holds the outcome slots left over from earlier invocations
(all `empty` for a chain that has never been invoked). -/
def streamFrom (head : Stage V) (rest : List (Stage V)) (prev : List (PipeRes V)) (x : V) :
    HRes V × List (StageLog V) :=
  let logs := drivePass head rest prev x
  (getStreamResultAt (logs.map StageLog.res), logs)

/-- `stream(input)` on a freshly built chain `head :: rest` (every outcome
slot in its initial `empty` state). -/
def stream (head : Stage V) (rest : List (Stage V)) (x : V) : HRes V :=
  (streamFrom head rest (List.replicate (rest.length + 1) PipeRes.empty) x).1

/-- A stage whose handler is a plain total function (always succeeds,
never asynchronous), with the default recovery and label. -/
def pureStage (f : V → V) : Stage V :=
  { handler := fun x => HOut.val (f x) }

end RPipeline

namespace RPipeline

/-- C1: for a chain `from(f).joint(g).joint(h)` of synchronous,
always-succeeding handlers, `stream x` returns `ok (h (g (f x)))`; in
particular `from(x => x*2).joint(x => x+1).joint(x => x*3).stream 5 = 33`. -/
theorem stream_three_stage_composition :
    (∀ (V : Type) (f g h : V → V) (x : V),
      stream (pureStage f) [pureStage g, pureStage h] x = HRes.ok (h (g (f x)))) ∧
    stream (pureStage (fun x : Int => x * 2))
      [pureStage (fun x => x + 1), pureStage (fun x => x * 3)] 5 = HRes.ok 33 := by
  constructor
  · intro V f g h x
    rfl
  · rfl

end RPipeline

namespace RPipeline

variable {V : Type}

/-- A drive pass over the whole chain `head :: rest` is the generic stepping
loop started with the seeded entry input as a success: for the head node,
reading `entryInput` and running the handler coincides with `unitStep` fed a
success carrying the same value. -/
theorem drivePass_eq_driveRest (head : Stage V) (rest : List (Stage V))
    (prev : List (PipeRes V)) (x : V) :
    drivePass head rest prev x = driveRest (head :: rest) prev (PipeRes.success x) := by
  simp only [drivePass, driveRest, unitHead, unitStep]

/-- C4: whenever a node's unit of work stores an error outcome and continues
to its successor (the only way a successor can ever observe a predecessor
error), the stored origin is exactly the input that was fed to the failing
handler; consequently the successor's recovery runs on that error and that
origin.  Concretely,
`from(x => x*2).joint(() => Error(e)).repair((_, parent) => parent ?? 0).joint(x => x+1).stream(5) = 11`,
and for an arbitrary recovery `r` the chain result is determined by
`r e (some (f x))`, exhibiting the arguments the driver hands to the
recovery handler. -/
theorem recover_receives_error_and_origin :
    (∀ (V : Type) (s : Stage V) (pres : PipeRes V) (e : String) (o : Option V)
        (stg : String) (i : Bool),
      unitStep s pres = (PipeRes.error e o stg, true, i) →
      ∃ v, o = some v ∧ s.handler v = HOut.err e) ∧
    (∀ (V : Type) (f g : V → V) (r : String → Option V → HOut V) (e : String) (x : V),
      stream (pureStage f)
        [{ handler := fun _ => HOut.err e },
         { handler := fun v => HOut.val v, recover := r },
         pureStage g] x =
      (match r e (some (f x)) with
       | HOut.val v => HRes.ok (g v)
       | HOut.err e2 => HRes.err e2
       | HOut.thenable => HRes.err thenableMsg)) ∧
    stream (pureStage (fun x : Int => x * 2))
      [{ handler := fun _ => HOut.err "e" },
       { handler := fun v => HOut.val v,
         recover := fun _ parent => HOut.val (parent.getD 0) },
       pureStage (fun x => x + 1)] 5 = HRes.ok 11 := by
  refine ⟨?_, ?_, ?_⟩
  · intro V s pres e o stg i h
    cases pres with
    | empty => simp [unitStep, inputErrorRes] at h
    | success v =>
      refine ⟨v, ?_⟩
      cases hh : s.handler v with
      | thenable => simp [unitStep, runHandler, hh, thenableError] at h
      | err e0 =>
        simp [unitStep, runHandler, hh] at h
        exact ⟨h.1.2.1.symm, congrArg HOut.err h.1.1⟩
      | val v0 => simp [unitStep, runHandler, hh] at h
    | error e' o' st' =>
      cases hr : s.recover e' o' with
      | thenable => simp [unitStep, hr, thenableError] at h
      | err e2 => simp [unitStep, hr] at h
      | val v =>
        refine ⟨v, ?_⟩
        cases hh : s.handler v with
        | thenable => simp [unitStep, runHandler, hr, hh, thenableError] at h
        | err e0 =>
          simp [unitStep, runHandler, hr, hh] at h
          exact ⟨h.1.2.1.symm, congrArg HOut.err h.1.1⟩
        | val v0 => simp [unitStep, runHandler, hr, hh] at h
  · intro V f g r e x
    cases hr : r e (some (f x)) with
    | val v =>
      simp [stream, streamFrom, drivePass, driveRest, unitHead, unitStep, runHandler,
        pureStage, hr, getStreamResultAt]
    | err e2 =>
      simp [stream, streamFrom, drivePass, driveRest, unitHead, unitStep, runHandler,
        pureStage, hr, getStreamResultAt, staleLogs, streamErrorFrom, resErr?]
    | thenable =>
      simp [stream, streamFrom, drivePass, driveRest, unitHead, unitStep, runHandler,
        pureStage, hr, getStreamResultAt, staleLogs, streamErrorFrom, resErr?,
        thenableError]
  · rfl

end RPipeline

namespace RPipeline

variable {V : Type}

/-- Membership from an index lookup. -/
theorem mem_of_get?_eq_some {α : Type} {l : List α} {n : Nat} {a : α}
    (h : l.get? n = some a) : a ∈ l := by
  obtain ⟨hn, ha⟩ := List.get?_eq_some.mp h
  exact ha ▸ List.get_mem l n hn

/-- Membership from a `getLast?` lookup. -/
theorem mem_of_getLast?_eq_some {α : Type} {l : List α} {a : α}
    (h : l.getLast? = some a) : a ∈ l := by
  obtain ⟨hne, hx⟩ := List.mem_getLast?_eq_getLast (Option.mem_def.mpr h)
  exact hx ▸ List.getLast_mem hne

/-- Every slot of a skipped suffix is attributed its previous value; starting
from a fresh invocation (all previous slots `empty`), skipped slots are
`empty`, unreached and uninvoked. -/
theorem staleLogs_eq_empty (rest : List (Stage V)) :
    ∀ prev : List (PipeRes V), (∀ p ∈ prev, p = PipeRes.empty) →
      ∀ L ∈ staleLogs rest prev, L = StageLog.mk PipeRes.empty false false := by
  induction rest with
  | nil => intro prev _ L hL; simp [staleLogs] at hL
  | cons s rest ih =>
    intro prev hprev L hL
    simp only [staleLogs, List.mem_cons] at hL
    rcases hL with h | h
    · subst h
      cases prev with
      | nil => rfl
      | cons p t => simp [List.headD, hprev p (by simp)]
    · exact ih prev.tail (fun p hp => hprev p (List.mem_of_mem_tail hp)) L h

/-- A list of `empty` slots contributes no error to the `getStreamError` walk. -/
theorem streamErrorFrom_all_empty (l : List (PipeRes V))
    (h : ∀ p ∈ l, p = PipeRes.empty) : streamErrorFrom l = none := by
  induction l with
  | nil => rfl
  | cons p t ih =>
    have hp : p = PipeRes.empty := h p (by simp)
    have ht := ih (fun q hq => h q (List.mem_cons_of_mem _ hq))
    simp [streamErrorFrom, ht, hp, resErr?]

/-- A unit of work that halts the drive loop always stores an error slot. -/
theorem unitStep_halt_err (s : Stage V) (pres : PipeRes V) (r : PipeRes V) (i : Bool)
    (h : unitStep s pres = (r, false, i)) : ∃ e o stg, r = PipeRes.error e o stg := by
  cases pres with
  | empty =>
    simp [unitStep] at h
    exact ⟨inputErrMsg, none, s.stage, h.1.symm⟩
  | success v =>
    cases hh : s.handler v with
    | thenable =>
      simp [unitStep, runHandler, hh] at h
      exact ⟨thenableMsg, none, s.stage, h.1.symm⟩
    | err e0 => simp [unitStep, runHandler, hh] at h
    | val v0 => simp [unitStep, runHandler, hh] at h
  | error e' o' st' =>
    cases hr : s.recover e' o' with
    | thenable =>
      simp [unitStep, hr] at h
      exact ⟨thenableMsg, none, s.stage, h.1.symm⟩
    | err e2 =>
      simp [unitStep, hr] at h
      exact ⟨e2, none, s.stage, h.1.symm⟩
    | val v =>
      cases hh : s.handler v with
      | thenable =>
        simp [unitStep, runHandler, hr, hh] at h
        exact ⟨thenableMsg, none, s.stage, h.1.symm⟩
      | err e0 => simp [unitStep, runHandler, hr, hh] at h
      | val v0 => simp [unitStep, runHandler, hr, hh] at h

/-- An error slot whose origin is populated can only come from the handler
branch of `setResult`, which continues the walk to the successor. -/
theorem unitStep_err_origin_cont (s : Stage V) (pres : PipeRes V) (e : String) (o : V)
    (stg : String) (c i : Bool)
    (h : unitStep s pres = (PipeRes.error e (some o) stg, c, i)) : c = true := by
  cases pres with
  | empty => simp [unitStep, inputErrorRes] at h
  | success v =>
    cases hh : s.handler v with
    | thenable => simp [unitStep, runHandler, hh, thenableError] at h
    | err e0 => simp [unitStep, runHandler, hh] at h; exact h.2.1
    | val v0 => simp [unitStep, runHandler, hh] at h
  | error e' o' st' =>
    cases hr : s.recover e' o' with
    | thenable => simp [unitStep, hr, thenableError] at h
    | err e2 => simp [unitStep, hr] at h
    | val v =>
      cases hh : s.handler v with
      | thenable => simp [unitStep, runHandler, hr, hh, thenableError] at h
      | err e0 => simp [unitStep, runHandler, hr, hh] at h; exact h.2.1
      | val v0 => simp [unitStep, runHandler, hr, hh] at h

end RPipeline

namespace RPipeline

variable {V : Type}

/-- An error slot with no origin comes from a guard (`inputError`,
`thenableError`) or from a failing recovery; all of these halt the walk. -/
theorem unitStep_err_noorigin_halt (s : Stage V) (pres : PipeRes V) (e : String)
    (stg : String) (c i : Bool)
    (h : unitStep s pres = (PipeRes.error e none stg, c, i)) : c = false := by
  cases pres with
  | empty => simp [unitStep] at h; exact h.2.1
  | success v =>
    cases hh : s.handler v with
    | thenable => simp [unitStep, runHandler, hh, thenableError] at h; exact h.2.1
    | err e0 => simp [unitStep, runHandler, hh] at h
    | val v0 => simp [unitStep, runHandler, hh] at h
  | error e' o' st' =>
    cases hr : s.recover e' o' with
    | thenable => simp [unitStep, hr, thenableError] at h; exact h.2.1
    | err e2 => simp [unitStep, hr] at h; exact h.2.1
    | val v =>
      cases hh : s.handler v with
      | thenable => simp [unitStep, runHandler, hr, hh, thenableError] at h; exact h.2.1
      | err e0 => simp [unitStep, runHandler, hr, hh] at h
      | val v0 => simp [unitStep, runHandler, hr, hh] at h

end RPipeline

namespace RPipeline

variable {V : Type}

/-- Core propagation property of the drive loop: if, on a fresh invocation,
the pass leaves an error `e` in the slot of stage `k` (any error when the
failing unit halted the loop, i.e. origin `none`; a handler error, origin
`some`, additionally requires the immediate successor to carry the default
`errorPassthrough` recovery), then the `getStreamError` walk finds exactly
`e`, the tail slot holds no success, and no stage after `k` has its handler
invoked during the pass. -/
theorem driveRest_error_extraction (stages : List (Stage V)) :
    ∀ (prev : List (PipeRes V)) (pres : PipeRes V) (k : Nat) (L : StageLog V)
      (e : String) (o : Option V) (stg : String),
      (∀ p ∈ prev, p = PipeRes.empty) →
      (driveRest stages prev pres).get? k = some L →
      L.res = PipeRes.error e o stg →
      (o = none ∨ ∀ s', stages.get? (k + 1) = some s' → s'.recover = errorPassthrough V) →
      streamErrorFrom ((driveRest stages prev pres).map StageLog.res) = some e ∧
      (∀ r, ((driveRest stages prev pres).map StageLog.res).getLast? = some r →
        ∀ v, r ≠ PipeRes.success v) ∧
      (∀ j M, k < j → (driveRest stages prev pres).get? j = some M → M.invoked = false) := by
  induction stages with
  | nil =>
    intro prev pres k L e o stg _ hk _ _
    simp [driveRest] at hk
  | cons s rest ih =>
    intro prev pres k L e o stg hprev hk hres hrec
    rcases hu : unitStep s pres with ⟨r, c, inv⟩
    have hprevt : ∀ p ∈ prev.tail, p = PipeRes.empty :=
      fun p hp => hprev p (List.mem_of_mem_tail hp)
    cases k with
    | zero =>
      simp only [driveRest, hu, List.get?_cons_zero, Option.some.injEq] at hk
      subst hk
      simp only at hres
      subst hres
      cases o with
      | none =>
        have hc : c = false := unitStep_err_noorigin_halt s pres e stg c inv hu
        subst hc
        have hdrive : driveRest (s :: rest) prev pres =
            StageLog.mk (PipeRes.error e none stg) inv true :: staleLogs rest prev.tail := by
          simp [driveRest, hu]
        rw [hdrive]
        have hstale : ∀ p ∈ (staleLogs rest prev.tail).map StageLog.res, p = PipeRes.empty := by
          intro p hp
          obtain ⟨M, hM, hMp⟩ := List.mem_map.mp hp
          rw [← hMp, staleLogs_eq_empty rest prev.tail hprevt M hM]
        refine ⟨?_, ?_, ?_⟩
        · simp [streamErrorFrom, streamErrorFrom_all_empty _ hstale, resErr?]
        · intro r' hr' v hv
          subst hv
          have hmem := mem_of_getLast?_eq_some hr'
          simp only [List.map_cons, List.mem_cons] at hmem
          rcases hmem with h | h
          · simp at h
          · exact absurd (hstale _ h) (by simp)
        · intro j M hj hM
          cases j with
          | zero => omega
          | succ m =>
            simp only [List.get?_cons_succ] at hM
            have hmem := mem_of_get?_eq_some hM
            rw [staleLogs_eq_empty rest prev.tail hprevt M hmem]
      | some ov =>
        have hc : c = true := unitStep_err_origin_cont s pres e ov stg c inv hu
        subst hc
        rcases hrec with hno | hrec
        · simp at hno
        · have hdrive : driveRest (s :: rest) prev pres =
              StageLog.mk (PipeRes.error e (some ov) stg) inv true ::
                driveRest rest prev.tail (PipeRes.error e (some ov) stg) := by
            simp [driveRest, hu]
          rw [hdrive]
          cases rest with
          | nil =>
            refine ⟨?_, ?_, ?_⟩
            · simp [driveRest, streamErrorFrom, resErr?]
            · intro r' hr' v hv
              subst hv
              simp [driveRest] at hr'
            · intro j M hj hM
              cases j with
              | zero => omega
              | succ m => simp [driveRest] at hM
          | cons s2 rest2 =>
            have hs2 : s2.recover = errorPassthrough V := hrec s2 (by simp)
            have hstep : unitStep s2 (PipeRes.error e (some ov) stg) =
                (PipeRes.error e none s2.stage, false, false) := by
              simp [unitStep, hs2, errorPassthrough]
            have hT : driveRest (s2 :: rest2) prev.tail (PipeRes.error e (some ov) stg) =
                StageLog.mk (PipeRes.error e none s2.stage) false true ::
                  staleLogs rest2 prev.tail.tail := by
              simp [driveRest, hstep]
            rw [hT]
            have hprevtt : ∀ p ∈ prev.tail.tail, p = PipeRes.empty :=
              fun p hp => hprevt p (List.mem_of_mem_tail hp)
            have hstale : ∀ p ∈ (staleLogs rest2 prev.tail.tail).map StageLog.res,
                p = PipeRes.empty := by
              intro p hp
              obtain ⟨M, hM, hMp⟩ := List.mem_map.mp hp
              rw [← hMp, staleLogs_eq_empty rest2 prev.tail.tail hprevtt M hM]
            refine ⟨?_, ?_, ?_⟩
            · simp [streamErrorFrom, streamErrorFrom_all_empty _ hstale, resErr?]
            · intro r' hr' v hv
              subst hv
              have hmem := mem_of_getLast?_eq_some hr'
              simp only [List.map_cons, List.mem_cons] at hmem
              rcases hmem with h | h
              · simp at h
              rcases h with h | h
              · simp at h
              · exact absurd (hstale _ h) (by simp)
            · intro j M hj hM
              cases j with
              | zero => omega
              | succ m =>
                simp only [List.get?_cons_succ] at hM
                cases m with
                | zero =>
                  simp only [List.get?_cons_zero, Option.some.injEq] at hM
                  rw [← hM]
                | succ m2 =>
                  simp only [List.get?_cons_succ] at hM
                  have hmem := mem_of_get?_eq_some hM
                  rw [staleLogs_eq_empty rest2 prev.tail.tail hprevtt M hmem]
    | succ n =>
      simp only [driveRest, hu, List.get?_cons_succ] at hk
      cases c with
      | false =>
        simp only [Bool.false_eq_true, if_false] at hk
        have hmem := mem_of_get?_eq_some hk
        rw [staleLogs_eq_empty rest prev.tail hprevt L hmem] at hres
        simp at hres
      | true =>
        simp only [if_true] at hk
        have hrec2 : o = none ∨
            ∀ s', rest.get? (n + 1) = some s' → s'.recover = errorPassthrough V := by
          rcases hrec with hno | hrec
          · exact Or.inl hno
          · exact Or.inr fun s' hs' => hrec s' (by simpa using hs')
        obtain ⟨ih1, ih2, ih3⟩ := ih prev.tail r n L e o stg hprevt hk hres hrec2
        have hdrive : driveRest (s :: rest) prev pres =
            StageLog.mk r inv true :: driveRest rest prev.tail r := by
          simp [driveRest, hu]
        rw [hdrive]
        refine ⟨?_, ?_, ?_⟩
        · simp [streamErrorFrom, ih1]
        · intro r' hr' v hv
          subst hv
          have hTne : driveRest rest prev.tail r ≠ [] := by
            intro h0
            rw [h0] at hk
            simp at hk
          rw [List.map_cons] at hr'
          cases hmap : (driveRest rest prev.tail r).map StageLog.res with
          | nil => exact hTne (List.map_eq_nil_iff.mp hmap)
          | cons m ms =>
            rw [hmap, List.getLast?_cons_cons] at hr'
            exact ih2 _ (hmap ▸ hr') v rfl
        · intro j M hj hM
          cases j with
          | zero => omega
          | succ m =>
            simp only [List.get?_cons_succ] at hM
            exact ih3 m M (by omega) hM

end RPipeline

namespace RPipeline

/-- C2: on a fresh invocation, if stage `k`'s handler returns an `Error`
(its slot holds an error with a populated origin, which only the handler
branch of `setResult` produces) and every stage after `k` carries the
default `errorPassthrough` recovery, then `stream` returns exactly that
error and no stage after `k` has its handler invoked during the pass. -/
theorem error_short_circuit :
    ∀ (V : Type) (head : Stage V) (rest : List (Stage V)) (x : V) (k : Nat)
      (L : StageLog V) (e : String) (o : V) (stg : String),
      (drivePass head rest (List.replicate (rest.length + 1) PipeRes.empty) x).get? k =
        some L →
      L.res = PipeRes.error e (some o) stg →
      (∀ j s', k < j → (head :: rest).get? j = some s' → s'.recover = errorPassthrough V) →
      stream head rest x = HRes.err e ∧
      (∀ j M, k < j →
        (drivePass head rest (List.replicate (rest.length + 1) PipeRes.empty) x).get? j =
          some M → M.invoked = false) := by
  intro V head rest x k L e o stg hk hres hrec
  have hprev : ∀ p ∈ List.replicate (rest.length + 1) (PipeRes.empty (V := V)),
      p = PipeRes.empty := fun p hp => List.eq_of_mem_replicate hp
  rw [drivePass_eq_driveRest] at hk
  obtain ⟨h1, h2, h3⟩ :=
    driveRest_error_extraction (head :: rest)
      (List.replicate (rest.length + 1) PipeRes.empty) (PipeRes.success x) k L e (some o) stg
      hprev hk hres (Or.inr fun s' hs' => hrec (k + 1) s' (by omega) hs')
  constructor
  · show getStreamResultAt _ = HRes.err e
    rw [drivePass_eq_driveRest]
    cases hl : ((driveRest (head :: rest) (List.replicate (rest.length + 1) PipeRes.empty)
        (PipeRes.success x)).map StageLog.res).getLast? with
    | none => simp [getStreamResultAt, hl, h1]
    | some r =>
      cases r with
      | empty => simp [getStreamResultAt, hl, h1]
      | success v => exact absurd rfl (h2 _ hl v)
      | error e2 o2 st2 => simp [getStreamResultAt, hl, h1]
  · intro j M hj hM
    rw [drivePass_eq_driveRest] at hM
    exact h3 j M hj hM

/-- Witness: `from(x => x).joint(() => Error(boom)).joint(x => x+1).stream(5)`
returns the boom error, and the third stage's handler is not invoked. -/
theorem error_short_circuit_witness :
    stream (pureStage (fun x : Int => x))
      [{ handler := fun _ => HOut.err "boom" }, pureStage (fun x => x + 1)] 5 =
      HRes.err "boom" ∧
    (StageLog.mk (PipeRes.error "boom" none "no name") false true : StageLog Int).invoked =
      false := by
  have h := error_short_circuit Int (pureStage (fun x : Int => x))
    [{ handler := fun _ => HOut.err "boom" }, pureStage (fun x => x + 1)] 5 1
    (StageLog.mk (PipeRes.error "boom" (some 5) "no name") true true) "boom" 5 "no name"
    (by rfl) (by rfl)
    (by
      intro j s' hj hs'
      rcases j with _ | _ | _ | j
      · omega
      · omega
      · simp only [List.get?_cons_succ, List.get?_cons_zero, Option.some.injEq] at hs'
        subst hs'
        rfl
      · simp at hs')
  exact ⟨h.1, h.2 2 (StageLog.mk (PipeRes.error "boom" none "no name") false true)
    (by omega) (by rfl)⟩

end RPipeline

namespace RPipeline

variable {V : Type}

/-- Length of a drive pass over the skipped suffix. -/
theorem staleLogs_length (rest : List (Stage V)) :
    ∀ prev : List (PipeRes V), (staleLogs rest prev).length = rest.length := by
  induction rest with
  | nil => intro prev; rfl
  | cons s rest ih => intro prev; simp [staleLogs, ih]

/-- A drive pass records one log per stage. -/
theorem driveRest_length (stages : List (Stage V)) :
    ∀ (prev : List (PipeRes V)) (pres : PipeRes V),
      (driveRest stages prev pres).length = stages.length := by
  induction stages with
  | nil => intro prev pres; rfl
  | cons s rest ih =>
    intro prev pres
    rcases hu : unitStep s pres with ⟨r, c, inv⟩
    cases c with
    | false => simp [driveRest, hu, staleLogs_length]
    | true => simp [driveRest, hu, ih]

/-- A stage whose handler always returns a thenable halts the synchronous
drive loop whenever its unit of work runs. -/
theorem unitStep_thenable_halt (s : Stage V) (pres : PipeRes V)
    (hth : ∀ v, s.handler v = HOut.thenable) (r : PipeRes V) (c i : Bool)
    (h : unitStep s pres = (r, c, i)) : c = false := by
  cases pres with
  | empty => simp [unitStep] at h; exact h.2.1
  | success v => simp [unitStep, runHandler, hth v] at h; exact h.2.1
  | error e' o' st' =>
    cases hr : s.recover e' o' with
    | thenable => simp [unitStep, hr] at h; exact h.2.1
    | err e2 => simp [unitStep, hr] at h; exact h.2.1
    | val v => simp [unitStep, runHandler, hr, hth v] at h; exact h.2.1

/-- If some stage of the chain has a handler that always returns a thenable,
a fresh synchronous pass can never leave a success in the tail slot. -/
theorem driveRest_thenable_no_success (stages : List (Stage V)) :
    ∀ (prev : List (PipeRes V)) (pres : PipeRes V) (k : Nat) (s : Stage V),
      stages.get? k = some s → (∀ v, s.handler v = HOut.thenable) →
      (∀ p ∈ prev, p = PipeRes.empty) →
      ∀ r, ((driveRest stages prev pres).map StageLog.res).getLast? = some r →
        ∀ v, r ≠ PipeRes.success v := by
  induction stages with
  | nil => intro prev pres k s hk; simp at hk
  | cons s0 rest ih =>
    intro prev pres k s hk hth hprev r hr v hv
    subst hv
    rcases hu : unitStep s0 pres with ⟨r0, c, inv⟩
    have hprevt : ∀ p ∈ prev.tail, p = PipeRes.empty :=
      fun p hp => hprev p (List.mem_of_mem_tail hp)
    have hstale : ∀ M ∈ staleLogs rest prev.tail, M = StageLog.mk PipeRes.empty false false :=
      staleLogs_eq_empty rest prev.tail hprevt
    cases k with
    | zero =>
      simp only [List.get?_cons_zero, Option.some.injEq] at hk
      subst hk
      have hc : c = false := unitStep_thenable_halt s0 pres hth r0 c inv hu
      subst hc
      have hdrive : driveRest (s0 :: rest) prev pres =
          StageLog.mk r0 inv true :: staleLogs rest prev.tail := by
        simp [driveRest, hu]
      rw [hdrive] at hr
      have hmem := mem_of_getLast?_eq_some hr
      simp only [List.map_cons, List.mem_cons] at hmem
      rcases hmem with h | h
      · obtain ⟨e0, o0, stg0, hr0⟩ := unitStep_halt_err s0 pres r0 inv hu
        rw [hr0] at h
        simp at h
      · obtain ⟨M, hM, hMp⟩ := List.mem_map.mp h
        rw [hstale M hM] at hMp
        simp at hMp
    | succ n =>
      simp only [List.get?_cons_succ] at hk
      cases c with
      | false =>
        have hdrive : driveRest (s0 :: rest) prev pres =
            StageLog.mk r0 inv true :: staleLogs rest prev.tail := by
          simp [driveRest, hu]
        rw [hdrive] at hr
        have hmem := mem_of_getLast?_eq_some hr
        simp only [List.map_cons, List.mem_cons] at hmem
        rcases hmem with h | h
        · obtain ⟨e0, o0, stg0, hr0⟩ := unitStep_halt_err s0 pres r0 inv hu
          rw [hr0] at h
          simp at h
        · obtain ⟨M, hM, hMp⟩ := List.mem_map.mp h
          rw [hstale M hM] at hMp
          simp at hMp
      | true =>
        have hdrive : driveRest (s0 :: rest) prev pres =
            StageLog.mk r0 inv true :: driveRest rest prev.tail r0 := by
          simp [driveRest, hu]
        rw [hdrive] at hr
        have hTne : rest ≠ [] := by
          intro h0
          rw [h0] at hk
          simp at hk
        have hmapne : (driveRest rest prev.tail r0).map StageLog.res ≠ [] := by
          intro h0
          have hnil := List.map_eq_nil_iff.mp h0
          have hl := driveRest_length rest prev.tail r0
          rw [hnil] at hl
          exact hTne (List.eq_nil_of_length_eq_zero hl.symm)
        cases hmap : (driveRest rest prev.tail r0).map StageLog.res with
        | nil => exact hmapne hmap
        | cons m ms =>
          rw [List.map_cons, hmap, List.getLast?_cons_cons] at hr
          exact ih prev.tail r0 n s hk hth hprevt (PipeRes.success v) (hmap ▸ hr) v rfl

end RPipeline

namespace RPipeline

variable {V : Type}

/-- Result extraction when the walk finds an error and the tail slot holds
no success. -/
theorem getStreamResultAt_err_of (l : List (PipeRes V)) (e : String)
    (h1 : streamErrorFrom l = some e)
    (h2 : ∀ r, l.getLast? = some r → ∀ v, r ≠ PipeRes.success v) :
    getStreamResultAt l = HRes.err e := by
  cases hl : l.getLast? with
  | none => simp [getStreamResultAt, hl, h1]
  | some r =>
    cases r with
    | empty => simp [getStreamResultAt, hl, h1]
    | success v => exact absurd rfl (h2 _ hl v)
    | error e2 o2 st2 => simp [getStreamResultAt, hl, h1]

/-- Result extraction only returns a success when the tail slot holds one. -/
theorem getStreamResultAt_eq_ok (l : List (PipeRes V)) (v : V)
    (h : getStreamResultAt l = HRes.ok v) : l.getLast? = some (PipeRes.success v) := by
  cases hl : l.getLast? with
  | none =>
    rw [getStreamResultAt, hl] at h
    cases hs : streamErrorFrom l <;> simp [hs] at h
  | some r =>
    cases r with
    | empty =>
      rw [getStreamResultAt, hl] at h
      cases hs : streamErrorFrom l <;> simp [hs] at h
    | success w =>
      simp only [getStreamResultAt, hl, HRes.ok.injEq] at h
      rw [h]
    | error e2 o2 st2 =>
      rw [getStreamResultAt, hl] at h
      cases hs : streamErrorFrom l <;> simp [hs] at h

/-- The walk over a concatenation: the nearest error of the later part wins
and the earlier part is consulted only when the later part holds none. -/
theorem streamErrorFrom_append (l1 l2 : List (PipeRes V)) :
    streamErrorFrom (l1 ++ l2) =
      (streamErrorFrom l2).elim (streamErrorFrom l1) some := by
  induction l1 with
  | nil => cases h2 : streamErrorFrom l2 <;> simp [streamErrorFrom, h2]
  | cons a t ih =>
    simp only [List.cons_append, streamErrorFrom, List.append_eq]
    rw [ih]
    cases h2 : streamErrorFrom l2
    · simp [h2]
    · simp [h2]

/-- The logs produced by a run of consecutive always-succeeding stages:
each stage stores the success of its handler applied to the previous value. -/
def pureLogs : List (V → V) → V → List (StageLog V)
  | [], _ => []
  | f :: fs, x => StageLog.mk (PipeRes.success (f x)) true true :: pureLogs fs (f x)

/-- Driving a prefix of always-succeeding stages walks straight through it,
folding the functions over the input. -/
theorem driveRest_pure_prefix (fs : List (V → V)) :
    ∀ (rest : List (Stage V)) (prev : List (PipeRes V)) (x : V),
      driveRest (fs.map pureStage ++ rest) prev (PipeRes.success x) =
        pureLogs fs x ++
          driveRest rest (prev.drop fs.length)
            (PipeRes.success (fs.foldl (fun a f => f a) x)) := by
  induction fs with
  | nil => intro rest prev x; simp [pureLogs]
  | cons f fs ih =>
    intro rest prev x
    have hu : unitStep (pureStage f) (PipeRes.success x) =
        (PipeRes.success (f x), true, true) := by
      simp [unitStep, runHandler, pureStage]
    simp only [List.map_cons, List.cons_append, driveRest, hu, if_true, pureLogs,
      List.append_eq]
    have hdrop : List.drop fs.length prev.tail = List.drop (f :: fs).length prev := by
      rw [← List.drop_one, List.drop_drop]
      congr 1
      simp only [List.length_cons]
      omega
    rw [ih rest prev.tail (f x), hdrop]
    rfl

/-- Invocation on a chain given as its full node list; a chain built by
`from`/`joint` always has at least one node, and its `start` reference is
that first node (`stream`, src/src/pipeline/pipe.ts lines 396-405). -/
def streamChain : List (Stage V) → V → HRes V
  | [], _ => HRes.err "Not executed by stream"
  | s :: rest, x => stream s rest x

end RPipeline

namespace RPipeline

variable {V : Type}

/-- Extraction over a pass that stopped at a thenable stage: the walk finds
the thenable error, whatever fresh slots precede it, as the slots behind it
are all empty. -/
theorem getStreamResultAt_thenable_block (l1 : List (PipeRes V)) (stg : String)
    (l2 : List (PipeRes V)) (h2 : ∀ p ∈ l2, p = PipeRes.empty) :
    getStreamResultAt (l1 ++ thenableError V stg :: l2) = HRes.err thenableMsg := by
  apply getStreamResultAt_err_of
  · rw [streamErrorFrom_append]
    have hth : streamErrorFrom (thenableError V stg :: l2) = some thenableMsg := by
      simp [streamErrorFrom, streamErrorFrom_all_empty l2 h2, thenableError, resErr?]
    rw [hth]
    rfl
  · intro r hr v hv
    subst hv
    rw [List.getLast?_append_cons] at hr
    have hmem := mem_of_getLast?_eq_some hr
    rcases List.mem_cons.mp hmem with h | h
    · simp [thenableError] at h
    · exact absurd (h2 _ h) (by simp)

/-- C3 counterexample: the chain
`from(() => Error(boom)).joint(async x => x)` contains a stage whose handler
returns an awaitable, yet `stream 5` returns the upstream `boom` error, not
the "must use async" error: the default pass-through recovery of the
thenable stage halts the walk before its handler ever runs. -/
theorem thenable_detection_counterexample :
    streamChain [{ handler := fun _ => HOut.err "boom" },
      { handler := fun _ => HOut.thenable }] (5 : Int) = HRes.err "boom" ∧
    HRes.err (V := Int) "boom" ≠ HRes.err thenableMsg := by
  exact ⟨rfl, by decide⟩

/-- C3 amended: a chain containing a stage whose handler always returns an
awaitable never produces a success value under `stream`; and when every
stage before that stage always succeeds, `stream` returns exactly the
"must use async" error. -/
theorem thenable_detection :
    (∀ (V : Type) (stages : List (Stage V)) (k : Nat) (s : Stage V) (x : V),
      stages.get? k = some s → (∀ v, s.handler v = HOut.thenable) →
      ∀ v, streamChain stages x ≠ HRes.ok v) ∧
    (∀ (V : Type) (fs : List (V → V)) (rec : String → Option V → HOut V)
      (stg : String) (post : List (Stage V)) (x : V),
      streamChain
        (fs.map pureStage ++ Stage.mk (fun _ => HOut.thenable) rec stg :: post) x =
        HRes.err thenableMsg) := by
  constructor
  · intro V stages k s x hk hth v
    cases stages with
    | nil => simp [streamChain] at hk
    | cons head rest =>
      intro hok
      have hgl := getStreamResultAt_eq_ok
        ((drivePass head rest (List.replicate (rest.length + 1) PipeRes.empty) x).map
          StageLog.res) v hok
      rw [drivePass_eq_driveRest] at hgl
      exact driveRest_thenable_no_success (head :: rest) _ (PipeRes.success x) k s hk hth
        (fun p hp => List.eq_of_mem_replicate hp) _ hgl v rfl
  · intro V fs rec stg post x
    cases fs with
    | nil =>
      show stream (Stage.mk (fun _ => HOut.thenable) rec stg) post x = HRes.err thenableMsg
      have hprevt : ∀ p ∈ (List.replicate (post.length + 1) (PipeRes.empty (V := V))).tail,
          p = PipeRes.empty :=
        fun p hp => List.eq_of_mem_replicate (List.mem_of_mem_tail hp)
      have hstale : ∀ p ∈ (staleLogs post
          (List.replicate (post.length + 1) (PipeRes.empty (V := V))).tail).map StageLog.res,
          p = PipeRes.empty := by
        intro p hp
        obtain ⟨M, hM, hMp⟩ := List.mem_map.mp hp
        rw [← hMp, staleLogs_eq_empty post _ hprevt M hM]
      have hlogs : drivePass (Stage.mk (fun _ => HOut.thenable) rec stg) post
          (List.replicate (post.length + 1) PipeRes.empty) x =
          StageLog.mk (thenableError V stg) true true ::
            staleLogs post (List.replicate (post.length + 1) PipeRes.empty).tail := by
        simp [drivePass, unitHead, runHandler]
      show getStreamResultAt _ = HRes.err thenableMsg
      rw [hlogs, List.map_cons]
      exact getStreamResultAt_thenable_block [] stg _ hstale
    | cons f fs2 =>
      show stream (pureStage f) (fs2.map pureStage ++
        Stage.mk (fun _ => HOut.thenable) rec stg :: post) x = HRes.err thenableMsg
      show getStreamResultAt _ = HRes.err thenableMsg
      rw [drivePass_eq_driveRest]
      have hch : (pureStage f :: (fs2.map pureStage ++
          Stage.mk (fun _ => HOut.thenable) rec stg :: post)) =
          ((f :: fs2).map pureStage ++
            Stage.mk (fun _ => HOut.thenable) rec stg :: post) := by
        simp
      rw [hch, driveRest_pure_prefix (f :: fs2)
        (Stage.mk (fun _ => HOut.thenable) rec stg :: post) _ x]
      have hstep : ∀ w : V, unitStep (Stage.mk (fun _ => HOut.thenable) rec stg)
          (PipeRes.success w) = (thenableError V stg, false, true) := by
        intro w
        simp [unitStep, runHandler]
      have hT : ∀ (P : List (PipeRes V)) (w : V),
          driveRest (Stage.mk (fun _ => HOut.thenable) rec stg :: post) P
            (PipeRes.success w) =
          StageLog.mk (thenableError V stg) true true :: staleLogs post P.tail := by
        intro P w
        simp [driveRest, hstep w]
      rw [hT]
      have hstale : ∀ (n m : Nat), ∀ p ∈ (staleLogs post
          ((List.replicate n (PipeRes.empty (V := V))).drop m).tail).map StageLog.res,
          p = PipeRes.empty := by
        intro n m p hp
        obtain ⟨M, hM, hMp⟩ := List.mem_map.mp hp
        rw [← hMp, staleLogs_eq_empty post _
          (fun q hq => List.eq_of_mem_replicate
            (List.mem_of_mem_drop (List.mem_of_mem_tail hq))) M hM]
      rw [List.map_append, List.map_cons]
      exact getStreamResultAt_thenable_block _ stg _ (hstale _ _)

end RPipeline

namespace RPipeline

variable {V : Type}

/-- Witness: a single-stage chain with a thenable handler never returns a
success, and a two-stage chain whose first stage succeeds returns exactly
the "must use async" error. -/
theorem thenable_detection_witness :
    streamChain [({ handler := fun _ => HOut.thenable } : Stage Int)] 5 ≠ HRes.ok 7 ∧
    streamChain (([fun x : Int => x * 2].map pureStage) ++
      Stage.mk (fun _ => HOut.thenable) (errorPassthrough Int) "no name" :: []) 5 =
      HRes.err thenableMsg := by
  constructor
  · exact thenable_detection.1 Int [{ handler := fun _ => HOut.thenable }] 0
      { handler := fun _ => HOut.thenable } 5 (by rfl) (fun v => rfl) 7
  · exact thenable_detection.2 Int [fun x : Int => x * 2] (errorPassthrough Int)
      "no name" [] 5

/-- Index lookup into the tail. -/
theorem get?_tail_succ {α : Type} (l : List α) (j : Nat) :
    l.tail.get? j = l.get? (j + 1) := by
  cases l with
  | nil => simp
  | cons a t => rfl

/-- Lookup inside the stale suffix of a pass: position `j` carries the
previous slot at position `j`. -/
theorem staleLogs_get? (rest : List (Stage V)) :
    ∀ (prev : List (PipeRes V)) (j : Nat) (L : StageLog V),
      (staleLogs rest prev).get? j = some L →
      L = StageLog.mk ((prev.get? j).getD PipeRes.empty) false false := by
  induction rest with
  | nil => intro prev j L h; simp [staleLogs] at h
  | cons s rest ih =>
    intro prev j L h
    cases j with
    | zero =>
      simp only [staleLogs, List.get?_cons_zero, Option.some.injEq] at h
      rw [← h]
      cases prev with
      | nil => rfl
      | cons p t => rfl
    | succ m =>
      simp only [staleLogs, List.get?_cons_succ] at h
      rw [ih prev.tail m L h, get?_tail_succ]

/-- C5 (amended form): a node's outcome slot is reset exactly when the drive
pass reaches that node.  Whether a node is reached, and the fresh outcome it
receives, are independent of the slots left over from earlier invocations;
a node the pass never reaches keeps its previous slot unchanged (with no
handler invocation). -/
theorem drive_reset_on_visit :
    ∀ (V : Type) (head : Stage V) (rest : List (Stage V))
      (prev prev' : List (PipeRes V)) (x : V) (j : Nat) (L L' : StageLog V),
      (drivePass head rest prev x).get? j = some L →
      (drivePass head rest prev' x).get? j = some L' →
      L.driven = L'.driven ∧ (L.driven = true → L = L') ∧
        (L.driven = false →
          L.res = (((PipeRes.empty (V := V)) :: prev.tail).get? j).getD PipeRes.empty ∧
          L.invoked = false) := by
  have main : ∀ (V : Type) (stages : List (Stage V)) (prev prev' : List (PipeRes V))
      (pres : PipeRes V) (j : Nat) (L L' : StageLog V),
      (driveRest stages prev pres).get? j = some L →
      (driveRest stages prev' pres).get? j = some L' →
      L.driven = L'.driven ∧ (L.driven = true → L = L') ∧
        (L.driven = false →
          L.res = (prev.get? j).getD PipeRes.empty ∧ L.invoked = false) := by
    intro V stages
    induction stages with
    | nil => intro prev prev' pres j L L' h; simp [driveRest] at h
    | cons s rest ih =>
      intro prev prev' pres j L L' h h'
      rcases hu : unitStep s pres with ⟨r, c, inv⟩
      cases j with
      | zero =>
        simp only [driveRest, hu, List.get?_cons_zero, Option.some.injEq] at h h'
        rw [← h, ← h']
        refine ⟨rfl, fun _ => rfl, fun hc => ?_⟩
        simp at hc
      | succ m =>
        simp only [driveRest, hu, List.get?_cons_succ] at h h'
        cases c with
        | true =>
          simp only [if_true] at h h'
          have hr := ih prev.tail prev'.tail r m L L' h h'
          rw [get?_tail_succ] at hr
          exact hr
        | false =>
          simp only [Bool.false_eq_true, if_false] at h h'
          rw [staleLogs_get? rest prev.tail m L h, staleLogs_get? rest prev'.tail m L' h']
          refine ⟨rfl, fun hc => ?_, fun _ => ?_⟩
          · simp at hc
          · rw [get?_tail_succ]
            exact ⟨rfl, rfl⟩
  intro V head rest prev prev' x j L L' h h'
  rw [drivePass_eq_driveRest] at h h'
  have := main V (head :: rest) (PipeRes.empty :: prev.tail) (PipeRes.empty :: prev'.tail)
    (PipeRes.success x) j L L' ?_ ?_
  · exact this
  · exact h
  · exact h'

end RPipeline

namespace RPipeline

/-- C5 counterexample: after a successful invocation (`stream 5 = ok 6`,
slots `[5, 5, 5, 6]`), a second invocation with input `-1` fails at the
third stage's recovery, the drive loop halts, the fourth node's slot is
never reset, and `stream` returns the stale success `6` from the previous
invocation instead of an error. -/
theorem reset_counterexample :
    ((streamFrom (pureStage (fun v : Int => v))
      [{ handler := fun v => if v < 0 then HOut.err "neg" else HOut.val v },
       { handler := fun v => HOut.val v, recover := fun _ _ => HOut.err "recover failed" },
       pureStage (fun v => v + 1)]
      (List.replicate 4 PipeRes.empty) 5).2.map StageLog.res =
      [PipeRes.success 5, PipeRes.success 5, PipeRes.success 5, PipeRes.success 6]) ∧
    ((streamFrom (pureStage (fun v : Int => v))
      [{ handler := fun v => if v < 0 then HOut.err "neg" else HOut.val v },
       { handler := fun v => HOut.val v, recover := fun _ _ => HOut.err "recover failed" },
       pureStage (fun v => v + 1)]
      (List.replicate 4 PipeRes.empty) 5).1 = HRes.ok 6) ∧
    ((streamFrom (pureStage (fun v : Int => v))
      [{ handler := fun v => if v < 0 then HOut.err "neg" else HOut.val v },
       { handler := fun v => HOut.val v, recover := fun _ _ => HOut.err "recover failed" },
       pureStage (fun v => v + 1)]
      [PipeRes.success 5, PipeRes.success 5, PipeRes.success 5, PipeRes.success 6]
      (-1)).1 = HRes.ok 6) ∧
    ((streamFrom (pureStage (fun v : Int => v))
      [{ handler := fun v => if v < 0 then HOut.err "neg" else HOut.val v },
       { handler := fun v => HOut.val v, recover := fun _ _ => HOut.err "recover failed" },
       pureStage (fun v => v + 1)]
      [PipeRes.success 5, PipeRes.success 5, PipeRes.success 5, PipeRes.success 6]
      (-1)).2.get? 3 = some (StageLog.mk (PipeRes.success 6) false false)) := by
  refine ⟨rfl, rfl, rfl, rfl⟩

/-- Witness for the reset-on-visit theorem: in the stale scenario above the
fourth node is unreached on the failing pass and keeps the slot
`success 6` of the previous invocation, whereas the same pass over a fresh
chain leaves it unreached with an `empty` slot. -/
theorem drive_reset_on_visit_witness :
    (false : Bool) = false ∧
    ((false : Bool) = true →
      StageLog.mk (PipeRes.success (6 : Int)) false false =
        StageLog.mk PipeRes.empty false false) ∧
    ((false : Bool) = false →
      (PipeRes.success (6 : Int)) =
        (((PipeRes.empty (V := Int)) ::
          [PipeRes.success (5 : Int), PipeRes.success 5, PipeRes.success 5,
            PipeRes.success 6].tail).get? 3).getD PipeRes.empty ∧
      (false : Bool) = false) := by
  have h := drive_reset_on_visit Int (pureStage (fun v : Int => v))
    [{ handler := fun v => if v < 0 then HOut.err "neg" else HOut.val v },
     { handler := fun v => HOut.val v, recover := fun _ _ => HOut.err "recover failed" },
     pureStage (fun v => v + 1)]
    [PipeRes.success 5, PipeRes.success 5, PipeRes.success 5, PipeRes.success 6]
    (List.replicate 4 PipeRes.empty) (-1) 3
    (StageLog.mk (PipeRes.success 6) false false)
    (StageLog.mk PipeRes.empty false false) (by rfl) (by rfl)
  exact h

end RPipeline

namespace RPipeline

/-- Witness: for the stage `() => Error(e)` fed the success `10`, the unit
of work continues with an error slot whose origin is `10`, so a successor's
recovery receives `(e, 10)`; and the concrete repair chain returns `11`. -/
theorem recover_receives_error_and_origin_witness :
    (∃ v : Int, (some (10 : Int)) = some v ∧
      (fun _ : Int => HOut.err (V := Int) "e") v = HOut.err "e") ∧
    stream (pureStage (fun x : Int => x * 2))
      [{ handler := fun _ => HOut.err "e" },
       { handler := fun v => HOut.val v,
         recover := fun _ parent => HOut.val (parent.getD 0) },
       pureStage (fun x => x + 1)] 5 = HRes.ok 11 := by
  refine ⟨?_, recover_receives_error_and_origin.2.2⟩
  exact recover_receives_error_and_origin.1 Int
    { handler := fun _ : Int => HOut.err "e" } (PipeRes.success 10) "e" (some 10)
    "no name" true (by rfl)

end RPipeline

namespace RPipeline

/-!
Layer middleware stack (src/unnamed/part_004, the current `layer.ts`).

A layer at the executable level (`LayerExecutableInterface`) owns a name,
an entry hook, an exit hook and two judges.  Hooks may return thenables
(`HOut`); the wrapped handler of the synchronous `stackLayer` is typed
synchronous in the source (`(input: Input<I>) => HandlerResult<O>`), so it
is modelled as `V → HRes V`.  Judges are called with non-error inputs on
entry (the stack aborts on an entry-hook error first) and with the current
output on exit; a judge may itself return a thenable, modelled by the
`thenable` constructors.  The `cleanup` callback only clears the `lastInput`
reference internal to `makeLayer` (used by its exit judge wrapper) and has
no observable effect at this level, so it is not modelled.

`stackLayer` keeps two mutable arrays in the closure of the layered
handler: `entryLayers` (consumed from the front by `shift`) and
`exitLayers` (grown at the back by `push`, consumed from the back by
`pop`).  The model stores `exitLayers` reversed (`exitRev`), so `push`
becomes cons and `pop` becomes head; `entryLayers` is kept in source order
(`shift` is head, the exit loop's `push` appends at the back).  These
arrays persist across invocations of the layered handler, which is why the
state is threaded in and out of `stackRun`.  The `do`-`while(retry)` loop
is given fuel; `none` means the fuel ran out.
-/

/-- `EntryJudgeResult` (src/src/layer/layerTypes.ts) as returned by an entry
judge, plus a `thenable` marker for a judge that returns a Promise. -/
inductive EntryJudgeRes (V : Type) where
  | cont
  | skip (v : HRes V)
  | thenable

/-- `ExitJudgeResult` (src/src/layer/layerTypes.ts) as returned by an exit
judge, plus a `thenable` marker. -/
inductive ExitJudgeRes (V : Type) where
  | cont
  | retry (v : V)
  | override (e : String)
  | thenable

/-- `LayerExecutableInterface` (src/unnamed/part_004 lines 31-37), minus the
unobservable `cleanup`. -/
structure SLayer (V : Type) where
  name : String
  entry : V → HOut V
  exit : HRes V → HOut V
  entryJudge : V → EntryJudgeRes V
  exitJudge : HRes V → ExitJudgeRes V

/-- Ghost trace event: an entry hook, an exit hook, or the wrapped handler
being invoked. -/
inductive LayerEv where
  | entry (nm : String)
  | exit (nm : String)
  | handler
  deriving DecidableEq, Repr

variable {V : Type}

/-- `layerThenableError(tag)` (src/unnamed/part_004 lines 39-41). -/
def layerThenableMsg (tag : String) : String :=
  "[" ++ tag ++ "]Cannot use thenable function. Please use stackAsyncLayer()"

/-- How the entry loop of `stackLayer` ends: an immediate `return` with an
error (thenable hook/judge, or an entry-hook error), a skip (the judge
supplied the operation's output), or all layers entered. -/
inductive EntryPhaseOut (V : Type) where
  | abort (e : String)
  | skipped (v : HRes V)
  | entered (x : V)

/-- The `while (entryLayers.length > 0)` loop of `stackLayer`
(src/unnamed/part_004 lines 73-102): shift the next layer, push it onto the
exited stack, run its entry hook (thenable → abort; error → abort with that
error), then its entry judge (thenable → abort; skip → adopt the judge's
value; continue → feed the hook's output to the next layer).  Returns the
remaining pending list, the exited stack (reversed), the extended trace and
the loop outcome. -/
def entryPhase : List (SLayer V) → List (SLayer V) → V → List LayerEv →
    List (SLayer V) × List (SLayer V) × List LayerEv × EntryPhaseOut V
  | [], exitRev, x, log => ([], exitRev, log, EntryPhaseOut.entered x)
  | l :: rest, exitRev, x, log =>
    match l.entry x with
    | HOut.thenable =>
      (rest, l :: exitRev, log ++ [LayerEv.entry l.name],
        EntryPhaseOut.abort (layerThenableMsg
          (l.name ++ "(" ++ toString (l :: exitRev).length ++ "):entry")))
    | HOut.err e =>
      (rest, l :: exitRev, log ++ [LayerEv.entry l.name], EntryPhaseOut.abort e)
    | HOut.val v =>
      match l.entryJudge v with
      | EntryJudgeRes.thenable =>
        (rest, l :: exitRev, log ++ [LayerEv.entry l.name],
          EntryPhaseOut.abort (layerThenableMsg
            ("[" ++ l.name ++ ":" ++ toString (l :: exitRev).length ++ "]:onEntryJudge")))
      | EntryJudgeRes.skip sv =>
        (rest, l :: exitRev, log ++ [LayerEv.entry l.name], EntryPhaseOut.skipped sv)
      | EntryJudgeRes.cont =>
        entryPhase rest (l :: exitRev) v (log ++ [LayerEv.entry l.name])

/-- How the exit loop of `stackLayer` ends: an immediate `return` with an
error (thenable hook/judge), a retry (restart the `do`-`while` with a new
input), or the exited stack emptied with a final output. -/
inductive ExitPhaseOut (V : Type) where
  | abort (e : String)
  | retried (x : V)
  | finished (out : HRes V)

/-- The `while (exitLayers.length > 0)` loop of `stackLayer`
(src/unnamed/part_004 lines 108-136): pop the most recently entered layer,
push it back onto the pending list, run its exit hook on the current output
(thenable → abort), then its exit judge (thenable → abort; retry → new
input; override → continue unwinding with the judge's error; continue →
adopt the hook's output and unwind further). -/
def exitPhase : List (SLayer V) → List (SLayer V) → HRes V → List LayerEv →
    List (SLayer V) × List (SLayer V) × List LayerEv × ExitPhaseOut V
  | [], entryL, out, log => ([], entryL, log, ExitPhaseOut.finished out)
  | l :: restRev, entryL, out, log =>
    match l.exit out with
    | HOut.thenable =>
      (restRev, entryL ++ [l], log ++ [LayerEv.exit l.name],
        ExitPhaseOut.abort (layerThenableMsg
          (l.name ++ "(" ++ toString (restRev.length + 1) ++ "):exit")))
    | HOut.err e =>
      match l.exitJudge (HRes.err e) with
      | ExitJudgeRes.thenable =>
        (restRev, entryL ++ [l], log ++ [LayerEv.exit l.name],
          ExitPhaseOut.abort (layerThenableMsg
            (l.name ++ "(" ++ toString (restRev.length + 1) ++ "):onExitJudge")))
      | ExitJudgeRes.retry x2 =>
        (restRev, entryL ++ [l], log ++ [LayerEv.exit l.name], ExitPhaseOut.retried x2)
      | ExitJudgeRes.override e2 =>
        exitPhase restRev (entryL ++ [l]) (HRes.err e2) (log ++ [LayerEv.exit l.name])
      | ExitJudgeRes.cont =>
        exitPhase restRev (entryL ++ [l]) (HRes.err e) (log ++ [LayerEv.exit l.name])
    | HOut.val v =>
      match l.exitJudge (HRes.ok v) with
      | ExitJudgeRes.thenable =>
        (restRev, entryL ++ [l], log ++ [LayerEv.exit l.name],
          ExitPhaseOut.abort (layerThenableMsg
            (l.name ++ "(" ++ toString (restRev.length + 1) ++ "):onExitJudge")))
      | ExitJudgeRes.retry x2 =>
        (restRev, entryL ++ [l], log ++ [LayerEv.exit l.name], ExitPhaseOut.retried x2)
      | ExitJudgeRes.override e2 =>
        exitPhase restRev (entryL ++ [l]) (HRes.err e2) (log ++ [LayerEv.exit l.name])
      | ExitJudgeRes.cont =>
        exitPhase restRev (entryL ++ [l]) (HRes.ok v) (log ++ [LayerEv.exit l.name])

/-- The two persistent arrays captured by the closure that `stackLayer`
returns: the pending entry list and the exited stack (stored reversed). -/
structure StackState (V : Type) where
  entryL : List (SLayer V)
  exitRev : List (SLayer V)

/-- Outcome of one iteration of the `do`-`while (retry)` body. -/
inductive StackPassOut (V : Type) where
  | abort (e : String)
  | retried (x : V)
  | finished (out : HRes V)

/-- One iteration of the `do`-`while (retry)` body of `stackLayer`
(src/unnamed/part_004 lines 69-137): run the entry loop; on skip the
judge-supplied value becomes the output and the handler is not invoked
(`output.value === null` test, line 104); otherwise the wrapped handler
runs on the fully entered value; then the exit loop unwinds. -/
def stackPass (st : StackState V) (handler : V → HRes V) (x : V) (log : List LayerEv) :
    StackState V × List LayerEv × StackPassOut V :=
  match entryPhase st.entryL st.exitRev x log with
  | (e1, xr1, log1, EntryPhaseOut.abort e) => (⟨e1, xr1⟩, log1, StackPassOut.abort e)
  | (e1, xr1, log1, EntryPhaseOut.skipped sv) =>
    (match exitPhase xr1 e1 sv log1 with
     | (xr2, e2, log3, ExitPhaseOut.abort e) => (⟨e2, xr2⟩, log3, StackPassOut.abort e)
     | (xr2, e2, log3, ExitPhaseOut.retried x2) => (⟨e2, xr2⟩, log3, StackPassOut.retried x2)
     | (xr2, e2, log3, ExitPhaseOut.finished out) =>
       (⟨e2, xr2⟩, log3, StackPassOut.finished out))
  | (e1, xr1, log1, EntryPhaseOut.entered lin) =>
    (match exitPhase xr1 e1 (handler lin) (log1 ++ [LayerEv.handler]) with
     | (xr2, e2, log3, ExitPhaseOut.abort e) => (⟨e2, xr2⟩, log3, StackPassOut.abort e)
     | (xr2, e2, log3, ExitPhaseOut.retried x2) => (⟨e2, xr2⟩, log3, StackPassOut.retried x2)
     | (xr2, e2, log3, ExitPhaseOut.finished out) =>
       (⟨e2, xr2⟩, log3, StackPassOut.finished out))

/-- The `do`-`while (retry)` loop of the layered handler: an abort returns
the error as the handler's result, a finished pass returns the output, a
retry re-runs the body with the judge-supplied input and whatever the two
persistent arrays now hold.  `fuel` bounds the number of passes (the source
loop may run forever); `none` means the bound was hit. -/
def stackRun : Nat → StackState V → (V → HRes V) → V → List LayerEv →
    Option (HRes V × StackState V × List LayerEv)
  | 0, _, _, _, _ => none
  | Nat.succ fuel, st, handler, x, log =>
    match stackPass st handler x log with
    | (st2, log2, StackPassOut.abort e) => some (HRes.err e, st2, log2)
    | (st2, log2, StackPassOut.finished out) => some (out, st2, log2)
    | (st2, log2, StackPassOut.retried x2) => stackRun fuel st2 handler x2 log2

/-- The closure state right after `stackLayer(layers)` is applied: every
layer pending (the source copies the array), the exited stack empty. -/
def initStack (layers : List (SLayer V)) : StackState V := ⟨layers, []⟩

/-- One invocation of the layered handler produced by
`stackLayer(layers)(handler)`, starting from closure state `st` with an
empty trace. -/
def stackedCall (fuel : Nat) (st : StackState V) (handler : V → HRes V) (x : V) :
    Option (HRes V × StackState V × List LayerEv) :=
  stackRun fuel st handler x []

/-- Forget the closure state, keeping the observable result and trace. -/
def runView (r : Option (HRes V × StackState V × List LayerEv)) :
    Option (HRes V × List LayerEv) :=
  r.map (fun t => (t.1, t.2.2))

/-- Result and trace of a second invocation of the same layered handler:
the first invocation's closure state is carried over. -/
def secondCall (layers : List (SLayer V)) (handler : V → HRes V) (x1 x2 : V) :
    Option (HRes V × List LayerEv) :=
  match stackedCall 1 (initStack layers) handler x1 with
  | none => none
  | some (_, st1, _) => runView (stackedCall 1 st1 handler x2)

/-- A layer whose entry and exit hooks are plain functions (entry `e`, exit
`g` on successes, errors passed through) and whose judges always continue
(the defaults installed by `makeLayer` when no conditions are given). -/
def pureLayer (nm : String) (e g : V → V) : SLayer V :=
  ⟨nm, fun x => HOut.val (e x),
    fun r => match r with
      | HRes.ok v => HOut.val (g v)
      | HRes.err s => HOut.err s,
    fun _ => EntryJudgeRes.cont, fun _ => ExitJudgeRes.cont⟩

/-- The exit hook of a pure layer as a function on outcomes. -/
def applyPureExit (g : V → V) : HRes V → HRes V
  | HRes.ok v => HRes.ok (g v)
  | HRes.err s => HRes.err s

end RPipeline

namespace RPipeline

variable {V : Type}

/-- Entry loop over pure layers: every layer enters in stack order, the
exited stack receives them in reverse, the trace records the entries in
order, and the entered value folds the entry hooks over the input. -/
theorem entryPhase_pure (ps : List (String × (V → V) × (V → V))) :
    ∀ (exitRev : List (SLayer V)) (x : V) (log : List LayerEv),
      entryPhase (ps.map fun p => pureLayer p.1 p.2.1 p.2.2) exitRev x log =
        ([], (ps.map fun p => pureLayer p.1 p.2.1 p.2.2).reverse ++ exitRev,
          log ++ ps.map (fun p => LayerEv.entry p.1),
          EntryPhaseOut.entered (ps.foldl (fun a p => p.2.1 a) x)) := by
  induction ps with
  | nil => intro exitRev x log; simp [entryPhase]
  | cons p ps ih =>
    intro exitRev x log
    have hstep : entryPhase (((p :: ps).map fun q => pureLayer q.1 q.2.1 q.2.2)) exitRev x log =
        entryPhase (ps.map fun q => pureLayer q.1 q.2.1 q.2.2)
          (pureLayer p.1 p.2.1 p.2.2 :: exitRev) (p.2.1 x)
          (log ++ [LayerEv.entry p.1]) := rfl
    rw [hstep, ih]
    simp [List.append_assoc]

/-- Exit loop over pure layers (given in pop order): every layer exits, the
pending list receives them in pop order, the trace records the exits, and
the output folds the exit hooks over the incoming outcome. -/
theorem exitPhase_pure (ps : List (String × (V → V) × (V → V))) :
    ∀ (entryL : List (SLayer V)) (out : HRes V) (log : List LayerEv),
      exitPhase (ps.map fun p => pureLayer p.1 p.2.1 p.2.2) entryL out log =
        ([], entryL ++ ps.map (fun p => pureLayer p.1 p.2.1 p.2.2),
          log ++ ps.map (fun p => LayerEv.exit p.1),
          ExitPhaseOut.finished (ps.foldl (fun a p => applyPureExit p.2.2 a) out)) := by
  induction ps with
  | nil => intro entryL out log; simp [exitPhase]
  | cons p ps ih =>
    intro entryL out log
    have hstep : exitPhase (((p :: ps).map fun q => pureLayer q.1 q.2.1 q.2.2)) entryL out log =
        exitPhase (ps.map fun q => pureLayer q.1 q.2.1 q.2.2)
          (entryL ++ [pureLayer p.1 p.2.1 p.2.2]) (applyPureExit p.2.2 out)
          (log ++ [LayerEv.exit p.1]) := by
      cases out with
      | ok v => rfl
      | err s => rfl
    rw [hstep, ih]
    simp [List.append_assoc]

/-- Folding pure exit hooks over a success stays a success of the fold. -/
theorem foldl_applyPureExit_ok (ps : List (String × (V → V) × (V → V))) :
    ∀ v : V, ps.foldl (fun a p => applyPureExit p.2.2 a) (HRes.ok v) =
      HRes.ok (ps.foldl (fun a p => p.2.2 a) v) := by
  induction ps with
  | nil => intro v; rfl
  | cons p ps ih =>
    intro v
    rw [List.foldl_cons, List.foldl_cons]
    exact ih (p.2.2 v)

end RPipeline

namespace RPipeline

/-- C6 (amended form): on the first invocation of a stacked operation over
layers with continue-only judges, entry hooks run in stack order, the
wrapped handler runs once, exit hooks run in reverse order, and the result
is `exit_1 (... exit_n (handler (entry_n (... entry_1 x))))`; but the pass
leaves the persistent pending list reversed, so the next invocation runs
the hooks in the opposite order. -/
theorem layer_stack_first_invocation :
    ∀ (V : Type) (ps : List (String × (V → V) × (V → V))) (h : V → V) (x : V),
      stackedCall 1 (initStack (ps.map fun p => pureLayer p.1 p.2.1 p.2.2))
        (fun v => HRes.ok (h v)) x =
      some (HRes.ok (ps.foldr (fun p a => p.2.2 a) (h (ps.foldl (fun a p => p.2.1 a) x))),
        StackState.mk (ps.map fun p => pureLayer p.1 p.2.1 p.2.2).reverse [],
        ps.map (fun p => LayerEv.entry p.1) ++ [LayerEv.handler] ++
          (ps.reverse).map (fun p => LayerEv.exit p.1)) := by
  intro V ps h x
  show stackRun 1 _ _ _ [] = _
  simp only [stackRun, stackPass, initStack, entryPhase_pure ps, ← List.map_reverse,
    exitPhase_pure, List.nil_append, List.append_nil]
  rw [foldl_applyPureExit_ok, List.foldl_reverse]

end RPipeline

namespace RPipeline

/-- C6 counterexample: with the two-layer stack `[L1, L2]` (entry hooks
`*2` and `+1`, identity exits, identity handler), the first invocation runs
entries in stack order and returns `11 = (5*2)+1`, but the second
invocation of the same stacked operation runs the hooks in reverse order
and returns `12 = (5+1)*2`, contradicting "on every invocation the entry
hooks run in the given stack order". -/
theorem layer_order_counterexample :
    runView (stackedCall 1 (initStack
      [pureLayer "L1" (fun v : Int => v * 2) (fun v => v),
       pureLayer "L2" (fun v => v + 1) (fun v => v)]) (fun v => HRes.ok v) 5) =
      some (HRes.ok 11,
        [LayerEv.entry "L1", LayerEv.entry "L2", LayerEv.handler,
         LayerEv.exit "L2", LayerEv.exit "L1"]) ∧
    secondCall
      [pureLayer "L1" (fun v : Int => v * 2) (fun v => v),
       pureLayer "L2" (fun v => v + 1) (fun v => v)] (fun v => HRes.ok v) 5 5 =
      some (HRes.ok 12,
        [LayerEv.entry "L2", LayerEv.entry "L1", LayerEv.handler,
         LayerEv.exit "L1", LayerEv.exit "L2"]) := by
  exact ⟨rfl, rfl⟩

end RPipeline

namespace RPipeline

variable {V : Type}

/-- An exit pass over a single exited layer that ends in a retry leaves the
exited stack empty and pushes the layer back onto the pending list. -/
theorem exitPhase_singleton_retried (l : SLayer V) (entryL : List (SLayer V))
    (out : HRes V) (log : List LayerEv) (xr2 e2 : List (SLayer V))
    (log3 : List LayerEv) (x2 : V)
    (h : exitPhase [l] entryL out log = (xr2, e2, log3, ExitPhaseOut.retried x2)) :
    xr2 = [] ∧ e2 = entryL ++ [l] := by
  cases hx : l.exit out with
  | thenable => simp [exitPhase, hx] at h
  | err e =>
    cases hj : l.exitJudge (HRes.err e) with
    | thenable => simp [exitPhase, hx, hj] at h
    | retry y =>
      simp [exitPhase, hx, hj] at h
      exact ⟨h.1, h.2.1.symm⟩
    | override e3 => simp [exitPhase, hx, hj] at h
    | cont => simp [exitPhase, hx, hj] at h
  | val v =>
    cases hj : l.exitJudge (HRes.ok v) with
    | thenable => simp [exitPhase, hx, hj] at h
    | retry y =>
      simp [exitPhase, hx, hj] at h
      exact ⟨h.1, h.2.1.symm⟩
    | override e3 => simp [exitPhase, hx, hj] at h
    | cont => simp [exitPhase, hx, hj] at h

end RPipeline

namespace RPipeline

/-- C7 (amended form): when an exit judge requests a retry, the
judge-supplied value becomes the new input and the body restarts; the
layers pending for the retry pass are exactly those already popped during
the current exit phase.  For a single-layer stack this means the whole
entry→handle→exit sequence repeats with the (one) layer pending again:
any pass over `[l]` that ends in `retried x2` leaves the closure state
exactly at its initial value, and the run continues as a fresh run on `x2`.
In a multi-layer stack the layers still on the exited list are not
re-entered: with `[L1, L2]` and `L2`'s judge retrying, the retry pass
re-runs only `L2`'s entry hook (the trace has a single `entry L1`). -/
theorem layer_retry_restart :
    (∀ (V : Type) (l : SLayer V) (handler : V → HRes V) (x x2 : V)
      (log log2 : List LayerEv) (st2 : StackState V) (fuel : Nat),
      stackPass (StackState.mk [l] []) handler x log = (st2, log2, StackPassOut.retried x2) →
      st2 = StackState.mk [l] [] ∧
      stackRun (fuel + 1) (StackState.mk [l] []) handler x log =
        stackRun fuel (StackState.mk [l] []) handler x2 log2) ∧
    runView (stackedCall 2 (initStack
      [pureLayer "L1" (fun v : Int => v + 1) (fun v => v),
       SLayer.mk "L2" (fun x => HOut.val x)
        (fun r => match r with | HRes.ok v => HOut.val v | HRes.err e => HOut.err e)
        (fun _ => EntryJudgeRes.cont)
        (fun r => match r with
          | HRes.ok v => if v < 2 then ExitJudgeRes.retry 5 else ExitJudgeRes.cont
          | HRes.err _ => ExitJudgeRes.cont)]) (fun v => HRes.ok v) (-1)) =
      some (HRes.ok 5,
        [LayerEv.entry "L1", LayerEv.entry "L2", LayerEv.handler, LayerEv.exit "L2",
         LayerEv.entry "L2", LayerEv.handler, LayerEv.exit "L2", LayerEv.exit "L1"]) := by
  constructor
  · intro V l handler x x2 log log2 st2 fuel hp
    have hst : st2 = StackState.mk [l] [] ∧
        log2 = log2 := by
      refine ⟨?_, rfl⟩
      cases he : l.entry x with
      | thenable => simp [stackPass, entryPhase, he] at hp
      | err e => simp [stackPass, entryPhase, he] at hp
      | val v =>
        cases hj : l.entryJudge v with
        | thenable => simp [stackPass, entryPhase, he, hj] at hp
        | skip sv =>
          simp only [stackPass, entryPhase, he, hj] at hp
          rcases hq : exitPhase [l] [] sv (log ++ [LayerEv.entry l.name])
            with ⟨xr2, e2, log3, eo⟩
          rw [hq] at hp
          cases eo with
          | abort e => simp at hp
          | finished out => simp at hp
          | retried y =>
            obtain ⟨h1, h2⟩ := exitPhase_singleton_retried l [] sv _ xr2 e2 log3 y hq
            simp only [Prod.mk.injEq] at hp
            rw [← hp.1, h1, h2]
            rfl
        | cont =>
          simp only [stackPass, entryPhase, he, hj] at hp
          rcases hq : exitPhase [l] [] (handler v)
            (log ++ [LayerEv.entry l.name] ++ [LayerEv.handler]) with ⟨xr2, e2, log3, eo⟩
          rw [hq] at hp
          cases eo with
          | abort e => simp at hp
          | finished out => simp at hp
          | retried y =>
            obtain ⟨h1, h2⟩ := exitPhase_singleton_retried l [] (handler v) _ xr2 e2 log3 y hq
            simp only [Prod.mk.injEq] at hp
            rw [← hp.1, h1, h2]
            rfl
    refine ⟨hst.1, ?_⟩
    show (match stackPass (StackState.mk [l] []) handler x log with
      | (st3, log3, StackPassOut.abort e) => some (HRes.err e, st3, log3)
      | (st3, log3, StackPassOut.finished out) => some (out, st3, log3)
      | (st3, log3, StackPassOut.retried x3) => stackRun fuel st3 handler x3 log3) =
      stackRun fuel (StackState.mk [l] []) handler x2 log2
    rw [hp, hst.1]
  · rfl

end RPipeline

namespace RPipeline

/-- C7 counterexample: two layers `[L1, L2]`, where `L2`'s exit judge
retries once with the new input `5`.  On the retry pass only `L2`'s entry
hook runs again — the trace contains a single `entry L1` although two full
passes were claimed, and the final outcome is `5`, not
`handler (entry_2 (entry_1 5)) = 6` as it would be if all layers were
pending again. -/
theorem layer_retry_counterexample :
    runView (stackedCall 2 (initStack
      [pureLayer "L1" (fun v : Int => v + 1) (fun v => v),
       SLayer.mk "L2" (fun x => HOut.val x)
        (fun r => match r with | HRes.ok v => HOut.val v | HRes.err e => HOut.err e)
        (fun _ => EntryJudgeRes.cont)
        (fun r => match r with
          | HRes.ok v => if v < 2 then ExitJudgeRes.retry 5 else ExitJudgeRes.cont
          | HRes.err _ => ExitJudgeRes.cont)]) (fun v => HRes.ok v) 0) =
      some (HRes.ok 5,
        [LayerEv.entry "L1", LayerEv.entry "L2", LayerEv.handler, LayerEv.exit "L2",
         LayerEv.entry "L2", LayerEv.handler, LayerEv.exit "L2", LayerEv.exit "L1"]) ∧
    HRes.ok (5 : Int) ≠ HRes.ok 6 := by
  exact ⟨rfl, by decide⟩

end RPipeline

namespace RPipeline

variable {V : Type}

/-- Entry loop over a pure prefix followed by further layers: the prefix
enters in order and the loop continues on the remaining layers. -/
theorem entryPhase_pure_prefix (ps : List (String × (V → V) × (V → V))) :
    ∀ (rest : List (SLayer V)) (exitRev : List (SLayer V)) (x : V) (log : List LayerEv),
      entryPhase ((ps.map fun p => pureLayer p.1 p.2.1 p.2.2) ++ rest) exitRev x log =
        entryPhase rest ((ps.map fun p => pureLayer p.1 p.2.1 p.2.2).reverse ++ exitRev)
          (ps.foldl (fun a p => p.2.1 a) x) (log ++ ps.map (fun p => LayerEv.entry p.1)) := by
  induction ps with
  | nil => intro rest exitRev x log; simp
  | cons p ps ih =>
    intro rest exitRev x log
    have hstep : entryPhase ((((p :: ps).map fun q => pureLayer q.1 q.2.1 q.2.2)) ++ rest)
        exitRev x log =
        entryPhase ((ps.map fun q => pureLayer q.1 q.2.1 q.2.2) ++ rest)
          (pureLayer p.1 p.2.1 p.2.2 :: exitRev) (p.2.1 x)
          (log ++ [LayerEv.entry p.1]) := rfl
    rw [hstep, ih]
    simp [List.append_assoc]

/-- A layer whose entry judge always skips with the value `sv`; entry hook
and exit hook are pass-through, exit judge continues. -/
def skipLayer (nm : String) (sv : HRes V) : SLayer V :=
  ⟨nm, fun x => HOut.val x,
    fun r => match r with
      | HRes.ok v => HOut.val v
      | HRes.err s => HOut.err s,
    fun _ => EntryJudgeRes.skip sv, fun _ => ExitJudgeRes.cont⟩

/-- C8 (amended form): when an entry judge skips with value `sv`, the
wrapped operation is never invoked on that pass, the layers after the
skipping one are not entered, and `sv` (possibly an error) becomes the
operation's output entering the exit phase: the final outcome is `sv`
threaded through the exit hooks of the layers entered so far — hence
exactly `sv` whenever those exit hooks pass their input through, as the
second part records. -/
theorem layer_skip_bypass :
    (∀ (V : Type) (pre : List (String × (V → V) × (V → V))) (nm : String) (sv : HRes V)
      (post : List (SLayer V)) (handler : V → HRes V) (x : V),
      stackedCall 1 (initStack ((pre.map fun p => pureLayer p.1 p.2.1 p.2.2) ++
        skipLayer nm sv :: post)) handler x =
      some (pre.foldr (fun p a => applyPureExit p.2.2 a) sv,
        StackState.mk (post ++ skipLayer nm sv ::
          (pre.map fun p => pureLayer p.1 p.2.1 p.2.2).reverse) [],
        (pre.map fun p => LayerEv.entry p.1) ++ LayerEv.entry nm :: LayerEv.exit nm ::
          ((pre.reverse).map fun p => LayerEv.exit p.1)) ∧
      LayerEv.handler ∉ ((pre.map fun p => LayerEv.entry p.1) ++ LayerEv.entry nm ::
        LayerEv.exit nm :: ((pre.reverse).map fun p => LayerEv.exit p.1))) ∧
    (∀ (V : Type) (qs : List (String × (V → V))) (sv : HRes V),
      qs.foldr (fun _ (a : HRes V) => applyPureExit (fun v => v) a) sv = sv) := by
  constructor
  · intro V pre nm sv post handler x
    have hskip : ∀ (XR : List (SLayer V)) (w : V) (lg : List LayerEv),
        entryPhase (skipLayer nm sv :: post) XR w lg =
          (post, skipLayer nm sv :: XR, lg ++ [LayerEv.entry nm],
            EntryPhaseOut.skipped sv) := fun XR w lg => rfl
    have hexitstep : ∀ (XR : List (SLayer V)) (eL : List (SLayer V)) (lg : List LayerEv),
        exitPhase (skipLayer nm sv :: XR) eL sv lg =
          exitPhase XR (eL ++ [skipLayer nm sv]) sv (lg ++ [LayerEv.exit nm]) := by
      intro XR eL lg
      cases sv with
      | ok v => rfl
      | err s => rfl
    constructor
    · show stackRun 1 _ _ _ [] = _
      simp only [stackRun, stackPass, initStack, entryPhase_pure_prefix pre, hskip,
        hexitstep, ← List.map_reverse, exitPhase_pure, List.nil_append, List.append_nil]
      rw [List.foldl_reverse]
      simp [List.append_assoc]
    · intro hmem
      simp [List.mem_append, List.mem_map] at hmem
  · intro V qs sv
    induction qs with
    | nil => rfl
    | cons q qs ih =>
      rw [List.foldr_cons, ih]
      cases sv with
      | ok v => rfl
      | err s => rfl

/-- C8 counterexample: a single layer whose entry judge skips with `ok 5`
but whose exit hook returns `7`: the wrapped operation is not invoked, yet
the final outcome is `ok 7`, not the judge-supplied `ok 5` — exit hooks
still transform the skip value. -/
theorem layer_skip_counterexample :
    runView (stackedCall 1 (initStack
      [SLayer.mk "S" (fun x : Int => HOut.val x) (fun _ => HOut.val 7)
        (fun _ => EntryJudgeRes.skip (HRes.ok 5)) (fun _ => ExitJudgeRes.cont)])
      (fun v => HRes.ok (v + 100)) 1) =
      some (HRes.ok 7, [LayerEv.entry "S", LayerEv.exit "S"]) ∧
    HRes.ok (7 : Int) ≠ HRes.ok 5 := by
  exact ⟨rfl, by decide⟩

end RPipeline

namespace RPipeline

variable {V : Type}

/-- A single layer whose exit judge retries with input `5` while the output
is below `2`. -/
def retryOnceLayer : SLayer Int :=
  ⟨"R", fun x => HOut.val x,
    fun r => match r with
      | HRes.ok v => HOut.val v
      | HRes.err e => HOut.err e,
    fun _ => EntryJudgeRes.cont,
    fun r => match r with
      | HRes.ok v => if v < 2 then ExitJudgeRes.retry 5 else ExitJudgeRes.cont
      | HRes.err _ => ExitJudgeRes.cont⟩

/-- Witness: for the singleton retry layer fed input `0`, the pass retries
with `5` and leaves the closure state at its initial value, so the run
continues as a fresh run on `5`. -/
theorem layer_retry_restart_witness :
    StackState.mk [retryOnceLayer] [] = StackState.mk [retryOnceLayer] [] ∧
    stackRun 1 (StackState.mk [retryOnceLayer] []) (fun v => HRes.ok v) 0 [] =
      stackRun 0 (StackState.mk [retryOnceLayer] []) (fun v => HRes.ok v) 5
        [LayerEv.entry "R", LayerEv.handler, LayerEv.exit "R"] :=
  layer_retry_restart.1 Int retryOnceLayer (fun v => HRes.ok v) 0 5 []
    [LayerEv.entry "R", LayerEv.handler, LayerEv.exit "R"]
    (StackState.mk [retryOnceLayer] []) 0 (by rfl)

/-- First per-key error in the keyed result mapping, in key order.  In the
source (`Object.values(results).find(result => result instanceof Error)`,
src/src/pipeline/pipe.ts lines 97-102) the scan follows the insertion order
of `results`, which is the completion order of the concurrently awaited
handlers; the embedding fixes that order to key order, and the theorems
below rely only on facts that hold for any order (no error at all, or
membership of the found error). -/
def keyedErr? (results : List (String × HRes V)) : Option String :=
  results.findSome? (fun kr => match kr.2 with
    | HRes.err e => some e
    | _ => none)

/-- Body of the handler installed by `Pipe.keyedParallelJoint`
(src/src/pipeline/pipe.ts lines 83-105), after all per-key handlers have
been awaited: collect every key's settled result (`HRes`, value or error)
into a same-keyed mapping in `Object.keys` order; with `failFast` return
the first error found, if any, as the stage's whole outcome; otherwise
return the full mapping verbatim, embedded errors included. -/
def keyedParallelCore (handlers : List (String × (V → HRes V))) (failFast : Bool) (input : V) :
    HRes (List (String × HRes V)) :=
  let results := handlers.map (fun kh => (kh.1, kh.2 input))
  if failFast then
    match keyedErr? results with
    | some e => HRes.err e
    | none => HRes.ok results
  else HRes.ok results

/-- An element witnessing a successful `findSome?`. -/
theorem exists_of_findSome?_eq_some {α β : Type} (f : α → Option β) :
    ∀ (l : List α) (b : β), l.findSome? f = some b → ∃ a ∈ l, f a = some b := by
  intro l
  induction l with
  | nil => intro b h; simp at h
  | cons a t ih =>
    intro b h
    cases hf : f a with
    | some c =>
      simp only [List.findSome?_cons, hf, Option.some.injEq] at h
      subst h
      exact ⟨a, by simp, hf⟩
    | none =>
      simp only [List.findSome?_cons, hf] at h
      obtain ⟨a2, ha2, hfa2⟩ := ih b h
      exact ⟨a2, by simp [ha2], hfa2⟩

/-- C9: `keyedParallelJoint` with `failFast = false` returns the full keyed
mapping verbatim, per-key errors embedded as values, and never fails as a
stage; with `failFast = true` it returns the mapping when no key erred, and
otherwise its outcome is a single error that is some key's awaited error. -/
theorem keyed_parallel_fail_policy :
    (∀ (V : Type) (handlers : List (String × (V → HRes V))) (x : V),
      keyedParallelCore handlers false x =
        HRes.ok (handlers.map fun kh => (kh.1, kh.2 x))) ∧
    (∀ (V : Type) (handlers : List (String × (V → HRes V))) (x : V),
      keyedErr? (handlers.map fun kh => (kh.1, kh.2 x)) = none →
      keyedParallelCore handlers true x =
        HRes.ok (handlers.map fun kh => (kh.1, kh.2 x))) ∧
    (∀ (V : Type) (handlers : List (String × (V → HRes V))) (x : V) (e : String),
      keyedErr? (handlers.map fun kh => (kh.1, kh.2 x)) = some e →
      keyedParallelCore handlers true x = HRes.err e ∧
      ∃ k h, (k, h) ∈ handlers ∧ h x = HRes.err e) := by
  refine ⟨?_, ?_, ?_⟩
  · intro V handlers x
    rfl
  · intro V handlers x hnone
    simp [keyedParallelCore, hnone]
  · intro V handlers x e hsome
    refine ⟨by simp [keyedParallelCore, hsome], ?_⟩
    obtain ⟨kr, hkr, hf⟩ := exists_of_findSome?_eq_some _ _ e hsome
    obtain ⟨kh, hkh, hmap⟩ := List.mem_map.mp hkr
    refine ⟨kh.1, kh.2, by simpa using hkh, ?_⟩
    rw [← hmap] at hf
    cases hh : kh.2 x with
    | ok v => rw [hh] at hf; simp at hf
    | err e2 =>
      rw [hh] at hf
      simp at hf
      rw [hf]

/-- Witness: with handlers `a : x => x+1` and `b : () => Error(e)` on input
`5`, collect-all returns both results with the error embedded, and
fail-fast returns the error `e` alone, produced by handler `b`. -/
theorem keyed_parallel_fail_policy_witness :
    keyedParallelCore
      [("a", fun v : Int => HRes.ok (v + 1)), ("b", fun _ => HRes.err "e")] false 5 =
      HRes.ok [("a", HRes.ok 6), ("b", HRes.err "e")] ∧
    keyedParallelCore
      [("a", fun v : Int => HRes.ok (v + 1)), ("b", fun _ => HRes.err "e")] true 5 =
      HRes.err "e" ∧
    ∃ k h, (k, h) ∈
      [("a", fun v : Int => HRes.ok (v + 1)), ("b", fun _ => HRes.err "e")] ∧
      h 5 = HRes.err "e" := by
  refine ⟨?_, ?_⟩
  · exact keyed_parallel_fail_policy.1 Int
      [("a", fun v : Int => HRes.ok (v + 1)), ("b", fun _ => HRes.err "e")] 5
  · exact keyed_parallel_fail_policy.2.2 Int
      [("a", fun v : Int => HRes.ok (v + 1)), ("b", fun _ => HRes.err "e")] 5 "e" (by rfl)

end RPipeline

namespace RPipeline

variable {V : Type}

/-!
Pointer-level model of the `Pipe` object graph, for the successor-link
claim.  Nodes live in an arena indexed by creation order; `parent`, `next`
and `start` are the `parent`, `next` and `start` references of the `Pipe`
constructor (src/src/pipeline/pipe.ts lines 28-46).  `joint` on node `i`
creates a fresh node whose parent is `i`, copies `i`'s `start` reference,
and assigns `i.next` to the new node — overwriting whatever `next` held.
-/

/-- One `Pipe` object: its links and its stage data. -/
structure PNode (V : Type) where
  parent : Option Nat
  next : Option Nat
  start : Option Nat
  st : Stage V

/-- `Pipe.from(handler)` (src/src/pipeline/pipe.ts lines 48-52): a single
parentless node whose `start` points to itself. -/
def pipeFrom (h : V → HOut V) : List (PNode V) × Nat :=
  ([⟨none, none, some 0, ⟨h, errorPassthrough V, "no name"⟩⟩], 0)

/-- Assign node `i`'s `next` reference. -/
def setNext : List (PNode V) → Nat → Nat → List (PNode V)
  | [], _, _ => []
  | n :: rest, 0, idx => ⟨n.parent, some idx, n.start, n.st⟩ :: rest
  | n :: rest, Nat.succ i, idx => n :: setNext rest i idx

/-- `joint(handler, recoverHandler?)` called on node `i` (src/src/pipeline/
pipe.ts lines 59-61 and the constructor, lines 36-46): append a fresh node
with parent `i` and `i`'s `start`, and point `i.next` at it. -/
def arenaJoint (a : List (PNode V)) (i : Nat) (h : V → HOut V)
    (rec : String → Option V → HOut V) : List (PNode V) × Nat :=
  (setNext a i a.length ++ [⟨some i, none, (a.get? i).bind PNode.start, ⟨h, rec, "no name"⟩⟩],
    a.length)

/-- One `unitStream` call on arena node `i` with the per-invocation slot
array `results`: resolve the input from the seeded entry input (parentless
node) or the parent's slot, run recovery/handler as in `unitStep`, write
the slot, and return the successor to walk to (or `none` to halt). -/
def arenaUnit (a : List (PNode V)) (entryOwner : Nat) (x : V)
    (results : List (PipeRes V)) (i : Nat) : List (PipeRes V) × Option Nat :=
  match a.get? i with
  | none => (results, none)
  | some node =>
    match node.parent with
    | none =>
      match unitHead node.st (if i = entryOwner then some x else none) with
      | (r, c) => (results.set i r, if c then node.next else none)
    | some p =>
      match unitStep node.st ((results.get? p).getD PipeRes.empty) with
      | (r, c, _) => (results.set i r, if c then node.next else none)

/-- The `doStream` walk (src/src/pipeline/pipe.ts lines 365-371) from node
`i`, with fuel (successor indices strictly increase in arenas built by
`pipeFrom`/`arenaJoint`, so `a.length + 1` units of fuel always suffice). -/
def arenaWalk : Nat → List (PNode V) → Nat → V → List (PipeRes V) → Nat → List (PipeRes V)
  | 0, _, _, _, results, _ => results
  | Nat.succ fuel, a, owner, x, results, i =>
    match arenaUnit a owner x results i with
    | (res2, none) => res2
    | (res2, some j) => arenaWalk fuel a owner x res2 j

/-- The `getStreamError` parent walk (src/src/pipeline/pipe.ts lines
243-261) from node `i` over the arena. -/
def arenaStreamError : Nat → List (PNode V) → List (PipeRes V) → Nat → Option String
  | 0, _, _, _ => none
  | Nat.succ fuel, a, results, i =>
    match (results.get? i).getD PipeRes.empty with
    | PipeRes.error e _ _ => some e
    | _ =>
      match (a.get? i).bind PNode.parent with
      | none => none
      | some p => arenaStreamError fuel a results p

/-- `stream(input)` invoked on arena node `i` (src/src/pipeline/pipe.ts
lines 396-405): resolve `i`'s `start` reference, drive the walk from there,
then extract `i`'s own result as in `getStreamResult`. -/
def arenaStream (a : List (PNode V)) (i : Nat) (x : V) : HRes V :=
  match (a.get? i).bind PNode.start with
  | none => HRes.err "Not executed by stream"
  | some s =>
    let results := arenaWalk (a.length + 1) a s x (List.replicate a.length PipeRes.empty) s
    match (results.get? i).getD PipeRes.empty with
    | PipeRes.success v => HRes.ok v
    | _ =>
      match arenaStreamError (a.length + 1) a results i with
      | some e => HRes.err e
      | none => HRes.err resultNotFoundMsg

/-- `setNext` rewrites exactly the targeted node's `next` field. -/
theorem setNext_get?_self (a : List (PNode V)) :
    ∀ (i idx : Nat) (old : PNode V), a.get? i = some old →
      (setNext a i idx).get? i = some ⟨old.parent, some idx, old.start, old.st⟩ := by
  induction a with
  | nil => intro i idx old h; simp at h
  | cons n rest ih =>
    intro i idx old h
    cases i with
    | zero =>
      simp only [List.get?_cons_zero, Option.some.injEq] at h
      subst h
      rfl
    | succ m =>
      simp only [List.get?_cons_succ] at h
      simp only [setNext, List.get?_cons_succ]
      exact ih m idx old h

/-- `setNext` preserves the arena's length. -/
theorem setNext_length (a : List (PNode V)) :
    ∀ (i idx : Nat), (setNext a i idx).length = a.length := by
  induction a with
  | nil => intro i idx; rfl
  | cons n rest ih =>
    intro i idx
    cases i with
    | zero => rfl
    | succ m => simp [setNext, ih]

end RPipeline

namespace RPipeline

/-- The arena built as `root := from(f); root.joint(g); root.joint(h)`:
node 0 is the root, node 1 the first attached tip, node 2 the second; the
second `joint` on the root overwrites `root.next`. -/
def forkArena (V : Type) (f g h : V → V) : List (PNode V) :=
  (arenaJoint (arenaJoint (pipeFrom (fun v => HOut.val (f v))).1 0
    (fun v => HOut.val (g v)) (errorPassthrough V)).1 0
    (fun v => HOut.val (h v)) (errorPassthrough V)).1

/-- C10: a node has a single mutable `next` reference, and `joint`
reassigns it to the freshly created node, silently detaching any earlier
successor.  Afterwards, `stream` on the earlier tip drives the most
recently attached path: the walk starts at the shared `start`, follows the
overwritten `next` into the new node (whose slot receives `h (f x)`), never
drives the earlier tip (its slot stays `empty`), and the earlier tip's
`stream` falls through to the defensive "Result not found" error. -/
theorem joint_reassigns_successor :
    (∀ (V : Type) (a : List (PNode V)) (i : Nat) (h : V → HOut V)
      (rec : String → Option V → HOut V) (old : PNode V),
      a.get? i = some old →
      ((arenaJoint a i h rec).1).get? i =
        some ⟨old.parent, some a.length, old.start, old.st⟩) ∧
    (∀ (V : Type) (f g h : V → V) (x : V),
      ((forkArena V f g h).get? 0).map PNode.next = some (some 2) ∧
      arenaStream (forkArena V f g h) 1 x = HRes.err resultNotFoundMsg ∧
      (arenaWalk ((forkArena V f g h).length + 1) (forkArena V f g h) 0 x
        (List.replicate (forkArena V f g h).length PipeRes.empty) 0).get? 2 =
        some (PipeRes.success (h (f x))) ∧
      (arenaWalk ((forkArena V f g h).length + 1) (forkArena V f g h) 0 x
        (List.replicate (forkArena V f g h).length PipeRes.empty) 0).get? 1 =
        some PipeRes.empty) := by
  constructor
  · intro V a i h rec old hold
    have hlt : i < a.length := by
      obtain ⟨hn, _⟩ := List.get?_eq_some.mp hold
      exact hn
    have hlen : i < (setNext a i a.length).length := by
      rw [setNext_length]
      exact hlt
    show (setNext a i a.length ++ [_]).get? i = _
    rw [List.get?_append hlen]
    exact setNext_get?_self a i a.length old hold
  · intro V f g h x
    exact ⟨rfl, rfl, rfl, rfl⟩

/-- Witness: joining onto the single-node chain `from(x => x)` rewrites the
root's `next` from `none` to the new node's index `1`. -/
theorem joint_reassigns_successor_witness :
    ((arenaJoint (pipeFrom (fun v : Int => HOut.val v)).1 0
      (fun v => HOut.val (v + 1)) (errorPassthrough Int)).1).get? 0 =
      some ⟨none, some 1, some 0,
        ⟨fun v : Int => HOut.val v, errorPassthrough Int, "no name"⟩⟩ :=
  joint_reassigns_successor.1 Int (pipeFrom (fun v : Int => HOut.val v)).1 0
    (fun v => HOut.val (v + 1)) (errorPassthrough Int)
    ⟨none, none, some 0, ⟨fun v : Int => HOut.val v, errorPassthrough Int, "no name"⟩⟩
    (by rfl)

end RPipeline
